import Mathlib

/-!
Verification of the Reflection Tree Manager of the Reflection-Journal
repository (src/src/managers.py), against its natural-language
specification.

The Python classes `ReflectionManager` and `JournalManager` operate on a
Python dict mapping reflection ids (uuid hex strings) to mutable
`ReflectionEntry` objects.  We embed the dict as an association list
`List (String × ReflectionEntry)` that preserves insertion order (Python
dicts are insertion ordered): lookup returns the first binding, updating
an existing key keeps its position, inserting a new key appends at the
end, and deletion removes the binding.  Mutation of an entry object that
is stored in the dict is embedded as an update of the list at that
entry's key (in the program every stored object sits in the dict under
its own `id` field, the key it was upserted with).

Python exceptions (KeyError from direct dict indexing, ValueError from
`list.remove`, RuntimeError from mutating a dict while iterating over
it) and nontermination of the recursive delete are embedded with the
`PyResult` type: `.exn` carries an uncaught exception and `.fuel` means
the recursion fuel ran out (the Python code would recurse further, or
forever).

Model classes imported by managers.py from its `models`/`llm` modules
(`Languages`, `QuestionEntry`, the `language` field of
`ReflectionEntry`, `Insight`, `ReflectionAnalysis`, `ReportAnalysis`)
are not present in the repository snapshot (src/src/models.py is an
older revision that lacks them); those data shapes are modelled from the
spec, as marked on each declaration.  All operation logic is translated
from src/src/managers.py.
-/

/-- Modelled from the spec: sentiment enumeration of a reflection
(section 3 of the spec; pydantic Literal with five values in the code
snapshot), each value a non-empty string, so it is always truthy in
Python. -/
inductive Sentiment where
  | Positive
  | SlightlyPositive
  | Neutral
  | SlightlyNegative
  | Negative
deriving DecidableEq, Repr

/-- The Python string value of a sentiment (the pydantic Literal). -/
def sentimentStr : Sentiment → String
  | .Positive => "Positive"
  | .SlightlyPositive => "Slightly Positive"
  | .Neutral => "Neutral"
  | .SlightlyNegative => "Slightly Negative"
  | .Negative => "Negative"

/-- Context-type tag of a reflection node (pydantic Literal in
src/src/models.py line 22). -/
inductive ContextType where
  | Original
  | Assumption
  | BlindSpot
  | Contradiction
deriving DecidableEq, Repr

/-- The Python string value of a context type. -/
def contextTypeStr : ContextType → String
  | .Original => "Original"
  | .Assumption => "Assumption"
  | .BlindSpot => "Blind Spot"
  | .Contradiction => "Contradiction"

/-- Modelled from the spec: the `Languages` enum imported by
managers.py from `models` and absent from the snapshot (the backend
revision defines EN, ES and CZ with string values "en", "es", "cz");
every value is a non-empty string, hence truthy in Python. -/
inductive Languages where
  | EN
  | ES
  | CZ
deriving DecidableEq, Repr

/-- The Python string value of a language. -/
def langStr : Languages → String
  | .EN => "en"
  | .ES => "es"
  | .CZ => "cz"

/-- A reflection node, from `ReflectionEntry` in src/src/models.py
(lines 15-25) plus the `language` field which managers.py uses
(lines 126-130, 170, 186) and which is modelled from the spec
(section 3: locale tag, inherited by children from parent).  The
`created_at` timestamp is omitted: no operation reads it. -/
structure ReflectionEntry where
  id : String
  question : String
  answer : Option String := none
  themes : List String := []
  sentiment : Sentiment := .Neutral
  context_type : ContextType := .Original
  context : Option String := none
  parent_id : Option String := none
  children_ids : List String := []
  language : Languages := .EN
deriving DecidableEq, Repr

/-- Python truthiness of an optional string: `None` and `""` are falsy. -/
def optTruthy : Option String → Bool
  | none => false
  | some s => s ≠ ""

/-- The dict of reflection entries: insertion-ordered key/value list. -/
abbrev Entries := List (String × ReflectionEntry)

/-- The keys of the dict, in insertion order. -/
def entryKeys (es : Entries) : List String := es.map (·.1)

/-- Dict lookup `d.get(k)`: the first binding of the key. -/
def entriesLookup (es : Entries) (k : String) : Option ReflectionEntry :=
  (es.find? (fun kv => kv.1 = k)).map (·.2)

/-- Dict assignment `d[k] = v`: replace in place if the key is present,
append at the end otherwise. -/
def entriesInsert (es : Entries) (k : String) (v : ReflectionEntry) : Entries :=
  if es.any (fun kv => kv.1 = k) then
    es.map (fun kv => if kv.1 = k then (kv.1, v) else kv)
  else
    es ++ [(k, v)]

/-- In-place mutation of the entry object stored at a key (position and
key preserved; a no-op when the key is absent). -/
def entriesUpdate (es : Entries) (k : String) (f : ReflectionEntry → ReflectionEntry) : Entries :=
  es.map (fun kv => if kv.1 = k then (kv.1, f kv.2) else kv)

/-- Dict deletion `del d[k]` with the key known to be present. -/
def entriesErase (es : Entries) (k : String) : Entries :=
  es.filter (fun kv => kv.1 ≠ k)

/-- Python `list.remove(x)`: remove the first occurrence (the caller
checks membership; on absence Python raises ValueError, handled at the
call site). -/
def listRemoveFirst : List String → String → List String
  | [], _ => []
  | x :: xs, y => if x = y then xs else x :: listRemoveFirst xs y

/-- Result of running a piece of Python code: a value, an uncaught
exception, or exhaustion of the recursion fuel of the embedding. -/
inductive PyResult (α : Type) where
  | ok : α → PyResult α
  | exn : String → PyResult α
  | fuel : PyResult α
deriving Repr, DecidableEq

/-- State of `ReflectionManager` (managers.py lines 72-78):
`original_entry_id` is the root id, `reflection_entries` the dict of
nodes. -/
structure ReflectionManager where
  original_entry_id : Option String := none
  reflection_entries : Entries := []
deriving DecidableEq, Repr

/-- `ReflectionManager.upsert_reflection` (managers.py lines 80-86):
sets `original_entry_id` if it is falsy, stores the entry under its id,
and returns the id.  (The `QuestionEntry` conversion branch merely
copies the fields into a `ReflectionEntry`; callers in this development
always pass a `ReflectionEntry`.) -/
def upsert_reflection (m : ReflectionManager) (e : ReflectionEntry) :
    String × ReflectionManager :=
  let oid := if optTruthy m.original_entry_id then m.original_entry_id else some e.id
  (e.id, { original_entry_id := oid,
           reflection_entries := entriesInsert m.reflection_entries e.id e })

/-- `ReflectionManager.get_reflection_by_id` (managers.py lines
104-105). -/
def get_reflection_by_id (m : ReflectionManager) (rid : String) :
    Option ReflectionEntry :=
  entriesLookup m.reflection_entries rid

/-- `ReflectionManager.get_parent_by_id` (managers.py lines 107-112):
requires the node to be present, then follows a truthy `parent_id`. -/
def get_parent_by_id (m : ReflectionManager) (rid : String) :
    Option ReflectionEntry :=
  match entriesLookup m.reflection_entries rid with
  | none => none
  | some e =>
    match e.parent_id with
    | none => none
    | some p => if p = "" then none else entriesLookup m.reflection_entries p

/-- `ReflectionManager.get_children_by_id` (managers.py lines 114-118):
direct dict indexing, so an absent node id or an absent child id raises
KeyError. -/
def getChildrenLoop (es : Entries) : List String → PyResult (List ReflectionEntry)
  | [] => .ok []
  | cid :: rest =>
    match entriesLookup es cid with
    | none => .exn "KeyError"
    | some c =>
      match getChildrenLoop es rest with
      | .ok cs => .ok (c :: cs)
      | r => r

/-- `ReflectionManager.get_children_by_id`, entry point. -/
def get_children_by_id (m : ReflectionManager) (rid : String) :
    PyResult (List ReflectionEntry) :=
  match entriesLookup m.reflection_entries rid with
  | none => .exn "KeyError"
  | some e => getChildrenLoop m.reflection_entries e.children_ids

/-- `ReflectionManager.get_language` (managers.py lines 126-130): the
language of the first entry whose language is truthy (every enum value
is a non-empty string, hence the first entry), defaulting to EN. -/
def get_language (m : ReflectionManager) : Languages :=
  match m.reflection_entries.find? (fun kv => langStr kv.2.language ≠ "") with
  | some kv => kv.2.language
  | none => .EN

/-- `ReflectionManager.get_statistics` (managers.py lines 218-220):
count of entries with truthy (non-empty) themes, and total count. -/
def get_statistics (m : ReflectionManager) : Nat × Nat :=
  ((m.reflection_entries.filter (fun kv => ¬ kv.2.themes.isEmpty)).length,
   m.reflection_entries.length)

/-- The reparenting loop inside `delete_reflection_by_id` (managers.py
lines 141-144, branch with a parent): for each child object (in the
snapshot order), set its `parent_id` to the parent's `id` field and
append its id to the parent object's `children_ids`.  `parentId` is the
parent's `id` field and `parentKey` the dict key under which the parent
object is stored (equal for every object the program puts in the
dict). -/
def reparentLoop (parentId parentKey : String) : Entries → List ReflectionEntry → Entries
  | es, [] => es
  | es, c :: cs =>
    reparentLoop parentId parentKey
      (entriesUpdate
        (entriesUpdate es c.id (fun x => { x with parent_id := some parentId }))
        parentKey (fun x => { x with children_ids := x.children_ids ++ [c.id] }))
      cs

mutual

/-- `ReflectionManager.delete_reflection_by_id` (managers.py lines
132-151).  Returns false if the id is absent.  Otherwise: look up the
parent (mirroring `get_parent_by_id`, keeping the key the parent object
is stored under); if a parent exists, remove the id from its
`children_ids` (ValueError if absent, as `list.remove` raises), take the
snapshot of child objects (KeyError on a dangling child id, as
`get_children_by_id` indexes the dict directly), and reparent each child
one level up; if no parent exists, recursively delete every child in the
snapshot; finally delete the binding (KeyError if it disappeared) and
return true.  The first argument is recursion fuel: `.fuel` means the
Python recursion would go deeper than the supplied bound. -/
def delete_reflection_by_id : Nat → ReflectionManager → String → PyResult (Bool × ReflectionManager)
  | 0, _, _ => .fuel
  | fuel+1, m, rid =>
    match entriesLookup m.reflection_entries rid with
    | none => .ok (false, m)
    | some e =>
      let parentKV : Option (String × ReflectionEntry) :=
        match e.parent_id with
        | none => none
        | some p =>
          if p = "" then none
          else match entriesLookup m.reflection_entries p with
               | none => none
               | some pe => some (p, pe)
      match parentKV with
      | some (p, pe) =>
        if rid ∈ pe.children_ids then
          let es1 := entriesUpdate m.reflection_entries p
            (fun x => { x with children_ids := listRemoveFirst x.children_ids rid })
          match entriesLookup es1 rid with
          | none => .exn "KeyError"
          | some e1 =>
            match getChildrenLoop es1 e1.children_ids with
            | .exn s => .exn s
            | .fuel => .fuel
            | .ok children =>
              let es2 := reparentLoop pe.id p es1 children
              if (entriesLookup es2 rid).isSome then
                .ok (true, { m with reflection_entries := entriesErase es2 rid })
              else .exn "KeyError"
        else .exn "ValueError"
      | none =>
        match getChildrenLoop m.reflection_entries e.children_ids with
        | .exn s => .exn s
        | .fuel => .fuel
        | .ok children =>
          match deleteChildrenLoop fuel m children with
          | .ok m2 =>
            if (entriesLookup m2.reflection_entries rid).isSome then
              .ok (true, { m2 with reflection_entries := entriesErase m2.reflection_entries rid })
            else .exn "KeyError"
          | .exn s => .exn s
          | .fuel => .fuel
termination_by f m rid => (f, 0)

/-- The recursive-deletion loop of `delete_reflection_by_id` for a node
without a parent (managers.py lines 145-146): delete each child in the
snapshot, threading the evolving manager state. -/
def deleteChildrenLoop : Nat → ReflectionManager → List ReflectionEntry → PyResult ReflectionManager
  | _, m, [] => .ok m
  | fuel, m, c :: cs =>
    match delete_reflection_by_id fuel m c.id with
    | .ok (_, m') => deleteChildrenLoop fuel m' cs
    | .exn s => .exn s
    | .fuel => .fuel
termination_by f m cs => (f, cs.length + 1)

end

/-- `ReflectionManager.delete_all_reflections_without_answer`
(managers.py lines 153-156).  The Python loop iterates over
`reflection_entries.values()` and calls `delete_reflection_by_id`
inside the loop; CPython dict iterators check on every step that the
dict size has not changed since the iterator was created and raise
RuntimeError otherwise.  Entries before the first unanswered one cause
no mutation; when the first unanswered entry is found it is deleted
(the dict shrinks by at least one binding) and the very next iterator
step raises.  If no entry is unanswered the loop completes. -/
def delete_all_reflections_without_answer (fuel : Nat) (m : ReflectionManager) :
    PyResult ReflectionManager :=
  match m.reflection_entries.find? (fun kv => ¬ optTruthy kv.2.answer) with
  | none => .ok m
  | some kv =>
    match delete_reflection_by_id fuel m kv.2.id with
    | .ok _ => .exn "RuntimeError: dictionary changed size during iteration"
    | .exn s => .exn s
    | .fuel => .fuel

/-- Modelled from the spec: the belief-type enum of the Analysis Client
response (spec section 6: Assumption, BlindSpot, Contradiction); the
pydantic model lives in the `models` module revision absent from the
snapshot. -/
inductive BeliefType where
  | Assumption
  | BlindSpot
  | Contradiction
deriving DecidableEq, Repr

/-- The Python string value of a belief type (the values feed the
`context_type` Literal of `ReflectionEntry`). -/
def beliefTypeStr : BeliefType → String
  | .Assumption => "Assumption"
  | .BlindSpot => "Blind Spot"
  | .Contradiction => "Contradiction"

/-- The context type a belief type induces on a generated child node. -/
def contextTypeOfBelief : BeliefType → ContextType
  | .Assumption => .Assumption
  | .BlindSpot => .BlindSpot
  | .Contradiction => .Contradiction

/-- Modelled from the spec: one belief of an Analysis Client response
(spec section 6: belief_type, statement, challenge_question). -/
structure Belief where
  belief_type : BeliefType
  statement : String
  challenge_question : String
deriving DecidableEq, Repr

/-- Modelled from the spec: the response of the Analysis Client for a
single question/answer pair (spec section 6: themes, sentiment,
beliefs). -/
structure ReflectionAnalysis where
  themes : List String
  sentiment : Sentiment
  beliefs : List Belief
deriving DecidableEq, Repr

/-- The child entry `analyze_reflection_by_id` constructs for one
belief (managers.py lines 181-187): `question = challenge_question`,
`context = statement`, `context_type = belief_type`, `parent_id` = the
analyzed node's `id` field, the parent's language, all other fields at
their pydantic defaults, and the fresh uuid hex id supplied by `fresh`
at the belief's position. -/
def childOfBelief (fresh : Nat → String) (parentId : String) (lang : Languages)
    (i : Nat) (b : Belief) : ReflectionEntry :=
  { id := fresh i,
    question := b.challenge_question,
    context := some b.statement,
    context_type := contextTypeOfBelief b.belief_type,
    parent_id := some parentId,
    language := lang }

/-- The child-creation loop of `analyze_reflection_by_id` (managers.py
lines 180-189): for each belief, construct the child entry, upsert it,
and append its id to the analyzed object's `children_ids`.  `parentId`
is the analyzed entry's `id` field, `parentKey` the key it is stored
under (equal in the program). -/
def insertChildrenLoop (fresh : Nat → String) (parentId parentKey : String)
    (lang : Languages) : Nat → ReflectionManager → List Belief → ReflectionManager
  | _, m, [] => m
  | i, m, b :: bs =>
    let child := childOfBelief fresh parentId lang i b
    let m1 := (upsert_reflection m child).2
    let es2 := entriesUpdate m1.reflection_entries parentKey
      (fun x => { x with children_ids := x.children_ids ++ [child.id] })
    insertChildrenLoop fresh parentId parentKey lang (i+1) { m1 with reflection_entries := es2 } bs

/-- `ReflectionManager.analyze_reflection_by_id` (managers.py lines
158-190).  `client` stands for `llm.analyze_reflection` (the Analysis
Client, which may return nothing); it receives the node's question,
answer and language, exactly the arguments the code passes.  `fresh`
supplies the uuid hex ids pydantic generates for the new children.
Returns false and the unchanged state when the node is absent or its
answer is falsy; returns true at once when `themes` and `sentiment` are
both truthy (`sentiment` is one of five non-empty strings, so only the
themes check can fail); returns false and the unchanged state when the
client returns nothing; otherwise writes `themes` and `sentiment` from
the response and runs the child-creation loop. -/
def analyze_reflection_by_id
    (client : String → String → Languages → Option ReflectionAnalysis)
    (fresh : Nat → String) (m : ReflectionManager) (rid : String) :
    Bool × ReflectionManager :=
  match entriesLookup m.reflection_entries rid with
  | none => (false, m)
  | some refl =>
    if !(optTruthy refl.answer) then (false, m)
    else if !refl.themes.isEmpty && sentimentStr refl.sentiment != "" then (true, m)
    else
      match client refl.question (refl.answer.getD "") refl.language with
      | none => (false, m)
      | some analysis =>
        let es1 := entriesUpdate m.reflection_entries rid
          (fun x => { x with themes := analysis.themes, sentiment := analysis.sentiment })
        let m1 := { m with reflection_entries := es1 }
        (true, insertChildrenLoop fresh refl.id rid refl.language 0 m1 analysis.beliefs)

/-- The node-local text block of `_get_recursive_report` (managers.py
lines 203-206): heading line with the question, an optional context
line when `context` is truthy, then the answer, each followed by a
blank line. -/
def entryText (pfx : String) (e : ReflectionEntry) : String :=
  let t := pfx ++ e.question ++ "\n\n"
  let t := if optTruthy e.context then
      t ++ "**" ++ contextTypeStr e.context_type ++ "**: " ++ e.context.getD "" ++ "\n\n"
    else t
  t ++ e.answer.getD "" ++ "\n\n"

mutual

/-- `ReflectionManager._get_recursive_report` (managers.py lines
196-211): empty string when the node is absent or unanswered; otherwise
its own text block followed by the reports of its children (looked up
via `get_children_by_id`, which raises KeyError on a dangling id) with
the heading marker deepened: the child gets the Python f-string
"#" + pfx + " " as its new pfx. -/
def get_recursive_report : Nat → ReflectionManager → String → String → PyResult String
  | 0, _, _, _ => .fuel
  | fuel+1, m, eid, pfx =>
    match entriesLookup m.reflection_entries eid with
    | none => .ok ""
    | some e =>
      if !(optTruthy e.answer) then .ok ""
      else
        match getChildrenLoop m.reflection_entries e.children_ids with
        | .exn s => .exn s
        | .fuel => .fuel
        | .ok children =>
          match reportChildrenLoop fuel m ("#" ++ pfx ++ " ") children with
          | .ok rest => .ok (entryText pfx e ++ rest)
          | .exn s => .exn s
          | .fuel => .fuel
termination_by f m eid pfx => (f, 0)

/-- The child loop of `_get_recursive_report` (managers.py lines
209-210): concatenate the recursive reports of the snapshot of child
objects, in order. -/
def reportChildrenLoop : Nat → ReflectionManager → String → List ReflectionEntry → PyResult String
  | _, _, _, [] => .ok ""
  | fuel, m, cpfx, c :: cs =>
    match get_recursive_report fuel m c.id cpfx with
    | .ok t =>
      match reportChildrenLoop fuel m cpfx cs with
      | .ok rest => .ok (t ++ rest)
      | r => r
    | .exn s => .exn s
    | .fuel => .fuel
termination_by f m cpfx cs => (f, cs.length + 1)

end

/-- `ReflectionManager.get_report` (managers.py lines 213-216): empty
string when `original_entry_id` is falsy, otherwise the recursive
report of the root with pfx "# ". -/
def get_report (fuel : Nat) (m : ReflectionManager) : PyResult String :=
  if !(optTruthy m.original_entry_id) then .ok ""
  else get_recursive_report fuel m (m.original_entry_id.getD "") "# "

/-- Modelled from the spec: importance enum of an insight (spec
section 3: High, Medium, Low). -/
inductive Importance where
  | High
  | Medium
  | Low
deriving DecidableEq, Repr

/-- Modelled from the spec: one insight of the report-level analysis
(spec section 3: insight, goal, tasks, importance); the pydantic model
is absent from the snapshot. -/
structure Insight where
  insight : String
  goal : String
  tasks : List String
  importance : Importance
deriving DecidableEq, Repr

/-- Modelled from the spec: the response of the Analysis Client for a
full report (spec section 6: main_question, answer_summary,
insights). -/
structure ReportAnalysis where
  main_question : String
  answer_summary : String
  insights : List Insight
deriving DecidableEq, Repr

/-- State of `JournalManager` (managers.py lines 223-233).  The
`uuid_str` field is omitted: it only names output files in
`save_journal_entry`, which does file I/O outside this model. -/
structure JournalManager where
  reflection_manager : ReflectionManager
  summary_entry : Option ReflectionEntry := none
  insights : List Insight := []
deriving DecidableEq, Repr

/-- `JournalManager._generate_journal_entry` (managers.py lines
241-266).  `clientReport` stands for `llm.analyze_report` and
`clientReflection` for `llm.analyze_reflection`; `sid` is the uuid hex
id pydantic generates for the synthetic summary entry; `fuel` bounds the
report recursion.  Fails (returns false with the journal state
untouched) when the report is empty or either client call returns
nothing; on success stores the summary entry and the insights. -/
def generate_journal_entry
    (clientReport : String → Languages → Option ReportAnalysis)
    (clientReflection : String → String → Languages → Option ReflectionAnalysis)
    (sid : String) (fuel : Nat) (j : JournalManager) :
    PyResult (Bool × JournalManager) :=
  match get_report fuel j.reflection_manager with
  | .exn s => .exn s
  | .fuel => .fuel
  | .ok report =>
    if report = "" then .ok (false, j)
    else
      let language := get_language j.reflection_manager
      match clientReport report language with
      | none => .ok (false, j)
      | some analysis =>
        match clientReflection analysis.main_question analysis.answer_summary language with
        | none => .ok (false, j)
        | some ra =>
          let summary : ReflectionEntry :=
            { id := sid,
              question := analysis.main_question,
              answer := some analysis.answer_summary,
              language := language,
              themes := ra.themes,
              sentiment := ra.sentiment,
              context := some (String.intercalate "\n"
                (ra.beliefs.map (fun b => beliefTypeStr b.belief_type ++ ": " ++ b.statement))) }
          .ok (true, { j with summary_entry := some summary, insights := analysis.insights })

/-- Default entry used only to give `Option.getD` a junk value in
statements where presence has already been established. -/
instance : Inhabited ReflectionEntry := ⟨{ id := "", question := "" }⟩

/-- Lookup with a junk default, used in statements about maps where the
key is known to be present. -/
def lookupD (es : Entries) (k : String) : ReflectionEntry :=
  (entriesLookup es k).getD default

/-- The bindings the child-creation loop of analysis appends to the
dict, in order: one per belief, keyed by its fresh id. -/
def newChildEntries (fresh : Nat → String) (parentId : String) (lang : Languages) :
    Nat → List Belief → Entries
  | _, [] => []
  | i, b :: bs =>
    (fresh i, childOfBelief fresh parentId lang i b) ::
      newChildEntries fresh parentId lang (i+1) bs

/-- The fresh ids used by the child-creation loop, in order. -/
def newChildIds (fresh : Nat → String) : Nat → List Belief → List String
  | _, [] => []
  | i, _ :: bs => fresh i :: newChildIds fresh (i+1) bs

/-- Every stored entry's `id` field equals its dict key (true of every
state the program constructs: entries are stored under their ids). -/
def idsMatchB (es : Entries) : Bool :=
  es.all (fun kv => kv.2.id == kv.1)

/-- Every dict key is a non-empty string (uuid hex ids), so id
truthiness tests in the code cannot misfire. -/
def keysNeB (es : Entries) : Bool :=
  es.all (fun kv => kv.1 != "")

/-- A stored `parent_id`, when set, refers to a key of the map. -/
def parentPresentB (es : Entries) (e : ReflectionEntry) : Bool :=
  match e.parent_id with
  | none => true
  | some p => (entryKeys es).contains p

/-- Every stored child id refers to a key of the map. -/
def childrenPresentB (es : Entries) (e : ReflectionEntry) : Bool :=
  e.children_ids.all (fun c => (entryKeys es).contains c)

/-- No dangling references: both directions of the previous checks over
the whole map. -/
def noDanglingB (es : Entries) : Bool :=
  es.all (fun kv => parentPresentB es kv.2 && childrenPresentB es kv.2)

/-- Bidirectional parent/child agreement, exactly as the claim states
it: for all stored nodes c and p, c.parent_id equals p's id exactly when
c's id is listed among p's children. -/
def bidirB (es : Entries) : Bool :=
  es.all (fun c => es.all (fun p =>
    (c.2.parent_id == some p.2.id) == p.2.children_ids.contains c.2.id))

/-- Bidirectional tree consistency of a manager state: no dangling
references and bidirectional parent/child agreement. -/
def treeConsistentB (m : ReflectionManager) : Bool :=
  noDanglingB m.reflection_entries && bidirB m.reflection_entries

/-- One node respects a rank function: its parent (if any) has strictly
smaller rank.  Existence of such a rank is acyclicity of the parent
relation. -/
def rankOkB (rank : String → Nat) (kv : String × ReflectionEntry) : Bool :=
  match kv.2.parent_id with
  | none => true
  | some p => rank p < rank kv.1

/-- Acyclicity of the parent relation, witnessed by a rank function. -/
def Acyclic (es : Entries) : Prop :=
  ∃ rank : String → Nat, ∀ kv ∈ es, rankOkB rank kv = true

/-- Well-formedness of a manager state: the invariants every state the
program builds satisfies (keys are distinct non-empty ids matching the
stored entries, children lists are duplicate-free, the tree is
consistent and the parent relation acyclic). -/
structure WF (m : ReflectionManager) : Prop where
  keysNodup : (entryKeys m.reflection_entries).Nodup
  idsMatch : idsMatchB m.reflection_entries = true
  keysNe : keysNeB m.reflection_entries = true
  childNodup : ∀ kv ∈ m.reflection_entries, kv.2.children_ids.Nodup
  consistent : treeConsistentB m = true
  acyclic : Acyclic m.reflection_entries

/-- Concrete three-node chain a1 -> b1 -> c1, fully answered, used to
instantiate theorems about deletion. -/
def entryA : ReflectionEntry :=
  { id := "a1", question := "QA", answer := some "AA", children_ids := ["b1"] }

/-- Middle node of the chain. -/
def entryB : ReflectionEntry :=
  { id := "b1", question := "QB", answer := some "AB",
    parent_id := some "a1", children_ids := ["c1"] }

/-- Leaf of the chain. -/
def entryC : ReflectionEntry :=
  { id := "c1", question := "QC", answer := some "AC", parent_id := some "b1" }

/-- Manager holding the three-node chain, rooted at a1. -/
def chainManager : ReflectionManager :=
  { original_entry_id := some "a1",
    reflection_entries := [("a1", entryA), ("b1", entryB), ("c1", entryC)] }

/-- A rank function witnessing acyclicity of the chain. -/
def chainRank : String → Nat :=
  fun s => if s = "a1" then 0 else if s = "b1" then 1 else 2

/-- Root r1 with one childless child s1 (a depth-one tree). -/
def flatRoot : ReflectionEntry :=
  { id := "r1", question := "QR", answer := some "AR", children_ids := ["s1"] }

/-- The childless child of the depth-one tree. -/
def flatChild : ReflectionEntry :=
  { id := "s1", question := "QS", parent_id := some "r1" }

/-- Manager holding the depth-one tree. -/
def flatManager : ReflectionManager :=
  { original_entry_id := some "r1",
    reflection_entries := [("r1", flatRoot), ("s1", flatChild)] }

/-- Answered root r2 whose only child u2 is unanswered but has an
answered child d2: the report-pruning scenario. -/
def repRoot : ReflectionEntry :=
  { id := "r2", question := "RQ", answer := some "RA", children_ids := ["u2"] }

/-- The unanswered middle node of the report scenario. -/
def repU : ReflectionEntry :=
  { id := "u2", question := "UQ", parent_id := some "r2", children_ids := ["d2"] }

/-- The answered grandchild of the report scenario. -/
def repD : ReflectionEntry :=
  { id := "d2", question := "DQ", answer := some "DA", parent_id := some "u2" }

/-- Manager holding the report scenario tree. -/
def reportManager : ReflectionManager :=
  { original_entry_id := some "r2",
    reflection_entries := [("r2", repRoot), ("u2", repU), ("d2", repD)] }

/-- An entry whose parent pointer dangles (no node "ghost" exists);
upserting it breaks consistency. -/
def danglingEntry : ReflectionEntry :=
  { id := "x1", question := "QX", parent_id := some "ghost" }

/-- The empty manager. -/
def emptyManager : ReflectionManager := {}

/-- A lone unanswered node. -/
def unansweredLone : ReflectionEntry := { id := "w1", question := "QW" }

/-- Manager holding only the lone unanswered node. -/
def unansweredManager : ReflectionManager :=
  { original_entry_id := some "w1", reflection_entries := [("w1", unansweredLone)] }

/-- A lone node that is answered and analyzed (non-empty themes). -/
def analyzedEntry : ReflectionEntry :=
  { id := "z1", question := "QZ", answer := some "AZ",
    themes := ["t"], sentiment := .Positive }

/-- Manager holding only the analyzed node. -/
def analyzedManager : ReflectionManager :=
  { original_entry_id := some "z1", reflection_entries := [("z1", analyzedEntry)] }

/-- A lone answered, not yet analyzed node. -/
def answeredLone : ReflectionEntry :=
  { id := "v1", question := "QV", answer := some "AV" }

/-- Manager holding only the answered node. -/
def answeredManager : ReflectionManager :=
  { original_entry_id := some "v1", reflection_entries := [("v1", answeredLone)] }

/-- An Analysis Client that always fails. -/
def noneClient : String → String → Languages → Option ReflectionAnalysis :=
  fun _ _ _ => none

/-- A fixed analysis response with one belief. -/
def oneBeliefAnalysis : ReflectionAnalysis :=
  { themes := ["work"], sentiment := .Positive,
    beliefs := [{ belief_type := .Assumption,
                  statement := "I equate busyness with productivity",
                  challenge_question := "What would enough look like today?" }] }

/-- An Analysis Client that always returns the fixed response. -/
def oneBeliefClient : String → String → Languages → Option ReflectionAnalysis :=
  fun _ _ _ => some oneBeliefAnalysis

/-- A fresh-id supply disjoint from every concrete id above. -/
def freshIds : Nat → String := fun i => "n" ++ toString i

/-- A fixed report-level analysis payload. -/
def reportAnalysisSample : ReportAnalysis :=
  { main_question := "MQ", answer_summary := "AS",
    insights := [{ insight := "I", goal := "G", tasks := ["T"], importance := .High }] }

/-- A report-level Analysis Client that always returns the fixed
payload. -/
def reportClientSome : String → Languages → Option ReportAnalysis :=
  fun _ _ => some reportAnalysisSample

/-- A report-level Analysis Client that always fails. -/
def reportClientNone : String → Languages → Option ReportAnalysis :=
  fun _ _ => none

/-- Journal manager over the answered lone node. -/
def answeredJournal : JournalManager := { reflection_manager := answeredManager }

/-- Journal manager over the empty reflection manager. -/
def emptyJournal : JournalManager := { reflection_manager := emptyManager }

/-- A fresh-id supply with provably distinct values that avoid every
short concrete id used in the examples ("nn", "nnn", ...). -/
def freshRep (j : Nat) : String := String.mk (List.replicate (j+2) 'n')

/-- Substring containment of Python strings ("needle in hay"), used to
state what a rendered report does and does not contain. -/
def strContains (hay needle : String) : Prop :=
  needle.data <:+: hay.data

instance (hay needle : String) : Decidable (strContains hay needle) := by
  unfold strContains
  infer_instance

/-!
Theorems.  First the dictionary lemmas, then characterizations of the
operations, then the claims.
-/

theorem entriesLookup_cons (a : String) (v : ReflectionEntry) (es : Entries) (k : String) :
    entriesLookup ((a, v) :: es) k = if a = k then some v else entriesLookup es k := by
  by_cases h : a = k <;> simp [entriesLookup, List.find?_cons, h]

theorem entriesUpdate_cons (a : String) (v : ReflectionEntry) (es : Entries) (k : String)
    (f : ReflectionEntry → ReflectionEntry) :
    entriesUpdate ((a, v) :: es) k f =
      (if a = k then (a, f v) else (a, v)) :: entriesUpdate es k f := by
  by_cases h : a = k <;> simp [entriesUpdate, h]

theorem entriesErase_cons (a : String) (v : ReflectionEntry) (es : Entries) (k : String) :
    entriesErase ((a, v) :: es) k =
      if a = k then entriesErase es k else (a, v) :: entriesErase es k := by
  by_cases h : a = k <;> simp [entriesErase, h]

theorem entriesLookup_update (es : Entries) (k : String) (f : ReflectionEntry → ReflectionEntry)
    (j : String) :
    entriesLookup (entriesUpdate es k f) j =
      if j = k then (entriesLookup es k).map f else entriesLookup es j := by
  induction es with
  | nil => simp [entriesLookup, entriesUpdate]
  | cons kv es ih =>
    obtain ⟨a, v⟩ := kv
    rw [entriesUpdate_cons]
    by_cases hak : a = k <;> by_cases hja : j = a
    · simp_all [entriesLookup_cons]
    · have h2 : ¬ k = j := fun h => hja ((hak.trans h).symm)
      have h1 : ¬ j = k := fun h => h2 h.symm
      simp_all [entriesLookup_cons]
    · simp_all [entriesLookup_cons]
    · have h3 : ¬ a = j := fun h => hja h.symm
      simp_all [entriesLookup_cons]

theorem entriesLookup_erase (es : Entries) (k j : String) :
    entriesLookup (entriesErase es k) j =
      if j = k then none else entriesLookup es j := by
  induction es with
  | nil => simp [entriesLookup, entriesErase]
  | cons kv es ih =>
    obtain ⟨a, v⟩ := kv
    rw [entriesErase_cons]
    by_cases hak : a = k <;> by_cases hja : j = a
    · simp_all [entriesLookup_cons]
    · have h2 : ¬ k = j := fun h => hja ((hak.trans h).symm)
      have h1 : ¬ j = k := fun h => h2 h.symm
      simp_all [entriesLookup_cons]
    · simp_all [entriesLookup_cons]
    · have h3 : ¬ a = j := fun h => hja h.symm
      simp_all [entriesLookup_cons]

theorem entryKeys_update (es : Entries) (k : String) (f : ReflectionEntry → ReflectionEntry) :
    entryKeys (entriesUpdate es k f) = entryKeys es := by
  induction es with
  | nil => rfl
  | cons kv es ih =>
    obtain ⟨a, v⟩ := kv
    rw [entriesUpdate_cons]
    by_cases h : a = k <;> simp [entryKeys, h] <;>
      simpa [entryKeys] using ih

theorem entriesUpdate_length (es : Entries) (k : String) (f : ReflectionEntry → ReflectionEntry) :
    (entriesUpdate es k f).length = es.length := by
  simp [entriesUpdate]

theorem entriesInsert_of_not_mem (es : Entries) (k : String) (v : ReflectionEntry)
    (h : k ∉ entryKeys es) : entriesInsert es k v = es ++ [(k, v)] := by
  have : es.any (fun kv => kv.1 = k) = false := by
    simp only [List.any_eq_false, decide_eq_true_eq]
    intro kv hkv hk
    exact h (hk ▸ List.mem_map_of_mem (·.1) hkv)
  simp [entriesInsert, this]

theorem entriesLookup_append (es es' : Entries) (k : String) :
    entriesLookup (es ++ es') k =
      ((entriesLookup es k).or (entriesLookup es' k)) := by
  induction es with
  | nil => simp [entriesLookup]
  | cons kv es ih =>
    obtain ⟨a, v⟩ := kv
    by_cases h : a = k <;> simp [entriesLookup_cons, h, ih]

theorem entriesLookup_eq_none_iff (es : Entries) (k : String) :
    entriesLookup es k = none ↔ k ∉ entryKeys es := by
  induction es with
  | nil => simp [entriesLookup, entryKeys]
  | cons kv es ih =>
    obtain ⟨a, v⟩ := kv
    by_cases h : a = k
    · subst h
      simp [entriesLookup_cons, entryKeys]
    · have h2 : ¬ k = a := fun hc => h hc.symm
      simp [entriesLookup_cons, h, entryKeys, ih, h2]

theorem entriesLookup_isSome_iff (es : Entries) (k : String) :
    (entriesLookup es k).isSome = true ↔ k ∈ entryKeys es := by
  simp [Option.isSome_iff_ne_none, ne_eq, entriesLookup_eq_none_iff, not_not]

theorem mem_of_entriesLookup (es : Entries) (k : String) (v : ReflectionEntry)
    (h : entriesLookup es k = some v) : (k, v) ∈ es := by
  induction es with
  | nil => simp [entriesLookup] at h
  | cons kv es ih =>
    obtain ⟨a, w⟩ := kv
    by_cases hak : a = k
    · subst hak
      simp [entriesLookup_cons] at h
      simp [h]
    · simp [entriesLookup_cons, hak] at h
      exact List.mem_cons_of_mem _ (ih h)

theorem entriesLookup_of_mem (es : Entries) (k : String) (v : ReflectionEntry)
    (hnd : (entryKeys es).Nodup) (h : (k, v) ∈ es) :
    entriesLookup es k = some v := by
  induction es with
  | nil => simp at h
  | cons kv es ih =>
    obtain ⟨a, w⟩ := kv
    rcases List.mem_cons.1 h with h1 | h1
    · cases h1
      simp [entriesLookup_cons]
    · have hnd' : (entryKeys es).Nodup := (List.nodup_cons.1 hnd).2
      have hane : a ∉ entryKeys es := by
        simpa [entryKeys] using (List.nodup_cons.1 hnd).1
      have hk : k ∈ entryKeys es := List.mem_map_of_mem (·.1) h1
      have hak : ¬ a = k := fun hc => hane (hc ▸ hk)
      simp [entriesLookup_cons, hak, ih hnd' h1]

theorem entryKeys_erase (es : Entries) (k : String) :
    entryKeys (entriesErase es k) = (entryKeys es).filter (fun x => x ≠ k) := by
  induction es with
  | nil => rfl
  | cons kv es ih =>
    obtain ⟨a, v⟩ := kv
    rw [entriesErase_cons]
    by_cases h : a = k <;> simp [entryKeys, List.filter_cons, h] <;>
      simpa [entryKeys] using ih

theorem entriesErase_length (es : Entries) (k : String)
    (hnd : (entryKeys es).Nodup) (h : k ∈ entryKeys es) :
    (entriesErase es k).length + 1 = es.length := by
  induction es with
  | nil => simp [entryKeys] at h
  | cons kv es ih =>
    obtain ⟨a, v⟩ := kv
    have hnd' : (entryKeys es).Nodup := (List.nodup_cons.1 hnd).2
    have hane : a ∉ entryKeys es := by
      simpa [entryKeys] using (List.nodup_cons.1 hnd).1
    rw [entriesErase_cons]
    by_cases hak : a = k
    · subst hak
      have : entriesErase es a = es := by
        apply List.filter_eq_self.2
        intro kv hkv
        simp only [decide_eq_true_eq]
        intro hc
        exact hane (hc ▸ List.mem_map_of_mem (·.1) hkv)
      simp [this]
    · have hk : k ∈ entryKeys es := by
        rcases (by simpa [entryKeys] using h) with h1 | h1
        · exact absurd h1.symm hak
        · simpa [entryKeys] using h1
      rw [if_neg hak]
      have := ih hnd' hk
      simp only [List.length_cons] at *
      omega

theorem entryKeys_append (es es' : Entries) :
    entryKeys (es ++ es') = entryKeys es ++ entryKeys es' := by
  simp [entryKeys]

theorem entriesUpdate_append (es es' : Entries) (k : String)
    (f : ReflectionEntry → ReflectionEntry) :
    entriesUpdate (es ++ es') k f = entriesUpdate es k f ++ entriesUpdate es' k f := by
  simp [entriesUpdate]

theorem entriesUpdate_update (es : Entries) (k : String)
    (f g : ReflectionEntry → ReflectionEntry) :
    entriesUpdate (entriesUpdate es k f) k g = entriesUpdate es k (fun x => g (f x)) := by
  induction es with
  | nil => rfl
  | cons kv es ih =>
    obtain ⟨a, v⟩ := kv
    rw [entriesUpdate_cons]
    by_cases h : a = k <;> simp [entriesUpdate_cons, h, ih]

theorem getChildrenLoop_ok (es : Entries) (cids : List String)
    (h : ∀ c ∈ cids, c ∈ entryKeys es) :
    getChildrenLoop es cids = .ok (cids.map (lookupD es)) := by
  induction cids with
  | nil => simp [getChildrenLoop]
  | cons c cs ih =>
    have hc : c ∈ entryKeys es := h c (List.mem_cons_self c cs)
    have hs : (entriesLookup es c).isSome = true := (entriesLookup_isSome_iff es c).2 hc
    obtain ⟨v, hv⟩ := Option.isSome_iff_exists.1 hs
    have hrest : getChildrenLoop es cs = .ok (cs.map (lookupD es)) :=
      ih (fun x hx => h x (List.mem_cons_of_mem c hx))
    simp [getChildrenLoop, hv, hrest, lookupD]

theorem reparentLoop_keys (pid pkey : String) (es : Entries) (cs : List ReflectionEntry) :
    entryKeys (reparentLoop pid pkey es cs) = entryKeys es := by
  induction cs generalizing es with
  | nil => rfl
  | cons c cs ih => simp [reparentLoop, ih, entryKeys_update]

theorem reparentLoop_lookup (pid pkey : String) (es : Entries) (cs : List ReflectionEntry)
    (hnd : (cs.map (·.id)).Nodup) (hnp : ∀ c ∈ cs, c.id ≠ pkey) (k : String) :
    entriesLookup (reparentLoop pid pkey es cs) k =
      if k = pkey then
        (entriesLookup es pkey).map
          (fun x => { x with children_ids := x.children_ids ++ cs.map (·.id) })
      else if k ∈ cs.map (·.id) then
        (entriesLookup es k).map (fun x => { x with parent_id := some pid })
      else entriesLookup es k := by
  induction cs generalizing es with
  | nil =>
    by_cases hk : k = pkey
    · subst hk
      cases h : entriesLookup es k <;> simp [reparentLoop, h]
    · simp [reparentLoop, hk]
  | cons c cs ih =>
    have hcp : c.id ≠ pkey := hnp c (List.mem_cons_self c cs)
    have hnd' : (cs.map (·.id)).Nodup := (List.nodup_cons.1 hnd).2
    have hcn : c.id ∉ cs.map (·.id) := (List.nodup_cons.1 hnd).1
    have hnp' : ∀ x ∈ cs, x.id ≠ pkey := fun x hx => hnp x (List.mem_cons_of_mem c hx)
    simp only [reparentLoop, List.map_cons]
    rw [ih _ hnd' hnp']
    by_cases hk : k = pkey
    · subst hk
      have hck : ¬ k = c.id := fun h => hcp h.symm
      rw [if_pos rfl, if_pos rfl, entriesLookup_update, if_pos rfl, entriesLookup_update,
        if_neg hck]
      cases h : entriesLookup es k <;> simp [h]
    · by_cases hkc : k = c.id
      · subst hkc
        simp [entriesLookup_update, hk, hcn]
      · by_cases hkm : k ∈ cs.map (·.id)
        · simp [entriesLookup_update, hk, hkc, hkm, List.mem_cons]
        · simp [entriesLookup_update, hk, hkc, hkm, List.mem_cons]

theorem delete_nonroot_eq
    (m : ReflectionManager) (rid pid : String) (e pe : ReflectionEntry) (f : Nat)
    (he : entriesLookup m.reflection_entries rid = some e)
    (hpar : e.parent_id = some pid)
    (hpne : pid ≠ "")
    (hpe : entriesLookup m.reflection_entries pid = some pe)
    (hmem : rid ∈ pe.children_ids)
    (hrp : rid ≠ pid)
    (hpc : pid ∉ e.children_ids)
    (hrc : rid ∉ e.children_ids)
    (hcpres : ∀ c ∈ e.children_ids, c ∈ entryKeys m.reflection_entries)
    (hcnodup : e.children_ids.Nodup)
    (hcid : ∀ c ∈ e.children_ids, (lookupD m.reflection_entries c).id = c) :
    delete_reflection_by_id (f+1) m rid =
      .ok (true, ReflectionManager.mk m.original_entry_id
        (entriesErase
          (reparentLoop pe.id pid
            (entriesUpdate m.reflection_entries pid
              (fun x => { x with children_ids := listRemoveFirst x.children_ids rid }))
            (e.children_ids.map (lookupD m.reflection_entries)))
          rid)) := by
  have hre : ¬ rid = pid := hrp
  have hes1 : entriesLookup
      (entriesUpdate m.reflection_entries pid
        (fun x => { x with children_ids := listRemoveFirst x.children_ids rid })) rid
      = some e := by
    rw [entriesLookup_update, if_neg hre, he]
  have hmapeq : (e.children_ids.map (lookupD
      (entriesUpdate m.reflection_entries pid
        (fun x => { x with children_ids := listRemoveFirst x.children_ids rid }))))
      = e.children_ids.map (lookupD m.reflection_entries) := by
    apply List.map_congr_left
    intro c hc
    have hcp : ¬ c = pid := fun hcc => hpc (hcc ▸ hc)
    simp [lookupD, entriesLookup_update, hcp]
  have hchildren : getChildrenLoop
      (entriesUpdate m.reflection_entries pid
        (fun x => { x with children_ids := listRemoveFirst x.children_ids rid }))
      e.children_ids
      = .ok (e.children_ids.map (lookupD m.reflection_entries)) := by
    rw [getChildrenLoop_ok, hmapeq]
    intro c hc
    rw [entryKeys_update]
    exact hcpres c hc
  have hidsmap : ((e.children_ids.map (lookupD m.reflection_entries)).map (·.id))
      = e.children_ids := by
    rw [List.map_map]
    exact List.map_congr_left (fun c hc => hcid c hc) |>.trans (List.map_id _)
  have hndids : (((e.children_ids.map (lookupD m.reflection_entries)).map (·.id))).Nodup := by
    rw [hidsmap]; exact hcnodup
  have hnp : ∀ c ∈ e.children_ids.map (lookupD m.reflection_entries), c.id ≠ pid := by
    intro c hc
    obtain ⟨x, hx, hxc⟩ := List.mem_map.1 hc
    subst hxc
    rw [hcid x hx]
    exact fun hcc => hpc (hcc ▸ hx)
  have hlast : (entriesLookup
      (reparentLoop pe.id pid
        (entriesUpdate m.reflection_entries pid
          (fun x => { x with children_ids := listRemoveFirst x.children_ids rid }))
        (e.children_ids.map (lookupD m.reflection_entries))) rid).isSome = true := by
    rw [reparentLoop_lookup _ _ _ _ hndids hnp, if_neg hre, hidsmap, if_neg hrc, hes1]
    rfl
  simp only [delete_reflection_by_id, he, hpar, hpne, hpe, if_neg hpne, hmem, if_pos hmem,
    hes1, hchildren, hmapeq, hlast, if_pos hlast]
  simp [hes1, hchildren, hlast]
  exact hmem

theorem delete_nonroot_final_lookup
    (m : ReflectionManager) (rid pid : String) (e pe : ReflectionEntry)
    (hpe : entriesLookup m.reflection_entries pid = some pe)
    (hrp : rid ≠ pid)
    (hpc : pid ∉ e.children_ids)
    (hrc : rid ∉ e.children_ids)
    (hcnodup : e.children_ids.Nodup)
    (hcid : ∀ c ∈ e.children_ids, (lookupD m.reflection_entries c).id = c)
    (k : String) :
    entriesLookup
      (entriesErase
        (reparentLoop pe.id pid
          (entriesUpdate m.reflection_entries pid
            (fun x => { x with children_ids := listRemoveFirst x.children_ids rid }))
          (e.children_ids.map (lookupD m.reflection_entries)))
        rid) k =
      if k = rid then none
      else if k = pid then
        some { pe with children_ids := listRemoveFirst pe.children_ids rid ++ e.children_ids }
      else if k ∈ e.children_ids then
        (entriesLookup m.reflection_entries k).map (fun x => { x with parent_id := some pe.id })
      else entriesLookup m.reflection_entries k := by
  have hidsmap : ((e.children_ids.map (lookupD m.reflection_entries)).map (·.id))
      = e.children_ids := by
    rw [List.map_map]
    exact List.map_congr_left (fun c hc => hcid c hc) |>.trans (List.map_id _)
  have hndids : (((e.children_ids.map (lookupD m.reflection_entries)).map (·.id))).Nodup := by
    rw [hidsmap]; exact hcnodup
  have hnp : ∀ c ∈ e.children_ids.map (lookupD m.reflection_entries), c.id ≠ pid := by
    intro c hc
    obtain ⟨x, hx, hxc⟩ := List.mem_map.1 hc
    subst hxc
    rw [hcid x hx]
    exact fun hcc => hpc (hcc ▸ hx)
  rw [entriesLookup_erase]
  by_cases hkr : k = rid
  · rw [if_pos hkr, if_pos hkr]
  · rw [if_neg hkr, if_neg hkr, reparentLoop_lookup _ _ _ _ hndids hnp, hidsmap]
    by_cases hkp : k = pid
    · subst hkp
      rw [if_pos rfl, if_pos rfl, entriesLookup_update, if_pos rfl, hpe]
      rfl
    · rw [if_neg hkp, if_neg hkp]
      by_cases hkc : k ∈ e.children_ids
      · rw [if_pos hkc, if_pos hkc, entriesLookup_update, if_neg hkp]
      · rw [if_neg hkc, if_neg hkc, entriesLookup_update, if_neg hkp]

theorem delete_nonroot_final_keys
    (m : ReflectionManager) (rid pid : String) (e pe : ReflectionEntry) :
    entryKeys
      (entriesErase
        (reparentLoop pe.id pid
          (entriesUpdate m.reflection_entries pid
            (fun x => { x with children_ids := listRemoveFirst x.children_ids rid }))
          (e.children_ids.map (lookupD m.reflection_entries)))
        rid) =
      (entryKeys m.reflection_entries).filter (fun x => x ≠ rid) := by
  rw [entryKeys_erase, reparentLoop_keys, entryKeys_update]

theorem delete_nonroot_final_length
    (m : ReflectionManager) (rid pid : String) (e pe : ReflectionEntry)
    (hnd : (entryKeys m.reflection_entries).Nodup)
    (hmem : rid ∈ entryKeys m.reflection_entries) :
    (entriesErase
        (reparentLoop pe.id pid
          (entriesUpdate m.reflection_entries pid
            (fun x => { x with children_ids := listRemoveFirst x.children_ids rid }))
          (e.children_ids.map (lookupD m.reflection_entries)))
        rid).length + 1 = m.reflection_entries.length := by
  have hk : entryKeys
      (reparentLoop pe.id pid
        (entriesUpdate m.reflection_entries pid
          (fun x => { x with children_ids := listRemoveFirst x.children_ids rid }))
        (e.children_ids.map (lookupD m.reflection_entries)))
      = entryKeys m.reflection_entries := by
    rw [reparentLoop_keys, entryKeys_update]
  have hlen : (reparentLoop pe.id pid
        (entriesUpdate m.reflection_entries pid
          (fun x => { x with children_ids := listRemoveFirst x.children_ids rid }))
        (e.children_ids.map (lookupD m.reflection_entries))).length
      = m.reflection_entries.length := by
    have h1 := congrArg List.length hk
    simpa [entryKeys] using h1
  rw [entriesErase_length _ _ (by rw [hk]; exact hnd) (by rw [hk]; exact hmem), hlen]

theorem idsMatchB_iff (es : Entries) :
    idsMatchB es = true ↔ ∀ kv ∈ es, kv.2.id = kv.1 := by
  simp [idsMatchB, List.all_eq_true]

theorem keysNeB_iff (es : Entries) :
    keysNeB es = true ↔ ∀ kv ∈ es, kv.1 ≠ "" := by
  simp [keysNeB, List.all_eq_true]

theorem parentPresentB_iff (es : Entries) (e : ReflectionEntry) :
    parentPresentB es e = true ↔ ∀ p ∈ e.parent_id, p ∈ entryKeys es := by
  cases h : e.parent_id <;> simp [parentPresentB, h]

theorem childrenPresentB_iff (es : Entries) (e : ReflectionEntry) :
    childrenPresentB es e = true ↔ ∀ c ∈ e.children_ids, c ∈ entryKeys es := by
  simp [childrenPresentB, List.all_eq_true]

theorem noDanglingB_iff (es : Entries) :
    noDanglingB es = true ↔
      ∀ kv ∈ es, (∀ p ∈ kv.2.parent_id, p ∈ entryKeys es) ∧
        ∀ c ∈ kv.2.children_ids, c ∈ entryKeys es := by
  simp only [noDanglingB, List.all_eq_true, Bool.and_eq_true]
  constructor
  · intro h kv hkv
    obtain ⟨h1, h2⟩ := h kv hkv
    exact ⟨(parentPresentB_iff es kv.2).1 h1, (childrenPresentB_iff es kv.2).1 h2⟩
  · intro h kv hkv
    obtain ⟨h1, h2⟩ := h kv hkv
    exact ⟨(parentPresentB_iff es kv.2).2 h1, (childrenPresentB_iff es kv.2).2 h2⟩

theorem bidirB_iff (es : Entries) :
    bidirB es = true ↔
      ∀ c ∈ es, ∀ p ∈ es,
        (c.2.parent_id = some p.2.id ↔ c.2.id ∈ p.2.children_ids) := by
  simp only [bidirB, List.all_eq_true]
  constructor
  · intro h c hc p hp
    have := h c hc p hp
    rw [beq_iff_eq, Bool.eq_iff_iff] at this
    simpa using this
  · intro h c hc p hp
    have := h c hc p hp
    rw [beq_iff_eq, Bool.eq_iff_iff]
    simpa using this

theorem treeConsistentB_iff (m : ReflectionManager) :
    treeConsistentB m = true ↔
      ((∀ kv ∈ m.reflection_entries,
          (∀ p ∈ kv.2.parent_id, p ∈ entryKeys m.reflection_entries) ∧
          ∀ c ∈ kv.2.children_ids, c ∈ entryKeys m.reflection_entries) ∧
        ∀ c ∈ m.reflection_entries, ∀ p ∈ m.reflection_entries,
          (c.2.parent_id = some p.2.id ↔ c.2.id ∈ p.2.children_ids)) := by
  rw [treeConsistentB, Bool.and_eq_true, noDanglingB_iff, bidirB_iff]

theorem rankOkB_iff (rank : String → Nat) (kv : String × ReflectionEntry) :
    rankOkB rank kv = true ↔ ∀ p ∈ kv.2.parent_id, rank p < rank kv.1 := by
  cases h : kv.2.parent_id <;> simp [rankOkB, h]

theorem wf_nonroot_facts (m : ReflectionManager) (rid pid : String)
    (e pe : ReflectionEntry) (hwf : WF m)
    (he : entriesLookup m.reflection_entries rid = some e)
    (hpar : e.parent_id = some pid)
    (hpe : entriesLookup m.reflection_entries pid = some pe) :
    pid ≠ "" ∧ rid ∈ pe.children_ids ∧ rid ≠ pid ∧ pid ∉ e.children_ids ∧
    rid ∉ e.children_ids ∧ (∀ c ∈ e.children_ids, c ∈ entryKeys m.reflection_entries) ∧
    e.children_ids.Nodup ∧
    (∀ c ∈ e.children_ids, (lookupD m.reflection_entries c).id = c) ∧
    e.id = rid ∧ pe.id = pid := by
  have hmemE : (rid, e) ∈ m.reflection_entries := mem_of_entriesLookup _ _ _ he
  have hmemP : (pid, pe) ∈ m.reflection_entries := mem_of_entriesLookup _ _ _ hpe
  have hids := (idsMatchB_iff m.reflection_entries).1 hwf.idsMatch
  have heid : e.id = rid := hids (rid, e) hmemE
  have hpid : pe.id = pid := hids (pid, pe) hmemP
  obtain ⟨hnd, hbd⟩ := (treeConsistentB_iff m).1 hwf.consistent
  obtain ⟨rank, hrank⟩ := hwf.acyclic
  have hlt : rank pid < rank rid := by
    have := (rankOkB_iff rank (rid, e)).1 (hrank _ hmemE)
    exact this pid (by simp [hpar])
  have hrp : rid ≠ pid := by
    intro h
    rw [h] at hlt
    exact lt_irrefl _ hlt
  refine ⟨(keysNeB_iff m.reflection_entries).1 hwf.keysNe (pid, pe) hmemP, ?_, hrp, ?_, ?_,
    (hnd (rid, e) hmemE).2, hwf.childNodup (rid, e) hmemE, ?_, heid, hpid⟩
  · have := (hbd (rid, e) hmemE (pid, pe) hmemP).1
    rw [heid] at this
    exact this (by rw [hpar, hpid])
  · intro hin
    have h1 : pe.id ∈ e.children_ids := hpid ▸ hin
    have h2 := (hbd (pid, pe) hmemP (rid, e) hmemE).2 h1
    have h2' : pe.parent_id = some rid := by simpa [heid] using h2
    have h3 := (rankOkB_iff rank (pid, pe)).1 (hrank _ hmemP) rid (by simp [h2'])
    simp only [] at h3
    omega
  · intro hin
    have h1 : e.id ∈ e.children_ids := heid ▸ hin
    have h2 := (hbd (rid, e) hmemE (rid, e) hmemE).2 h1
    rw [hpar, heid] at h2
    exact hrp (Option.some_injective _ h2).symm
  · intro c hc
    have hck : c ∈ entryKeys m.reflection_entries := (hnd (rid, e) hmemE).2 c hc
    obtain ⟨v, hv⟩ := Option.isSome_iff_exists.1 ((entriesLookup_isSome_iff _ _).2 hck)
    have : v.id = c := hids (c, v) (mem_of_entriesLookup _ _ _ hv)
    rw [lookupD, hv]
    exact this

/-- Claim C10: frame property of non-root deletion.  When the deleted
node exists and its parent is present in the map (and the state is
well formed), the call returns true, exactly one binding disappears
(the map shrinks by one), the parent's children list loses the deleted
id and gains the deleted node's children at its end, those children's
parent_id is repointed at the parent, the session root is untouched,
and every other binding is exactly as before. -/
theorem delete_nonroot_frame
    (m : ReflectionManager) (rid pid : String) (e pe : ReflectionEntry) (f : Nat)
    (hwf : WF m)
    (he : get_reflection_by_id m rid = some e)
    (hpar : e.parent_id = some pid)
    (hpe : get_reflection_by_id m pid = some pe) :
    ∃ m' : ReflectionManager,
      delete_reflection_by_id (f+1) m rid = .ok (true, m') ∧
      m'.original_entry_id = m.original_entry_id ∧
      m'.reflection_entries.length + 1 = m.reflection_entries.length ∧
      get_reflection_by_id m' rid = none ∧
      get_reflection_by_id m' pid =
        some { pe with children_ids := listRemoveFirst pe.children_ids rid ++ e.children_ids } ∧
      (∀ c ∈ e.children_ids,
        get_reflection_by_id m' c =
          (get_reflection_by_id m c).map (fun x => { x with parent_id := some pid })) ∧
      ∀ k, k ≠ rid → k ≠ pid → k ∉ e.children_ids →
        get_reflection_by_id m' k = get_reflection_by_id m k := by
  obtain ⟨hpne, hmem, hrp, hpc, hrc, hcpres, hcnodup, hcid, heid, hpid⟩ :=
    wf_nonroot_facts m rid pid e pe hwf he hpar hpe
  refine ⟨_, delete_nonroot_eq m rid pid e pe f he hpar hpne hpe hmem hrp hpc hrc
    hcpres hcnodup hcid, rfl, ?_, ?_, ?_, ?_, ?_⟩
  · exact delete_nonroot_final_length m rid pid e pe hwf.keysNodup
      ((entriesLookup_isSome_iff _ _).1 (by rw [get_reflection_by_id] at he; simp [he]))
  · show entriesLookup _ rid = none
    rw [delete_nonroot_final_lookup m rid pid e pe hpe hrp hpc hrc hcnodup hcid rid,
      if_pos rfl]
  · show entriesLookup _ pid = _
    rw [delete_nonroot_final_lookup m rid pid e pe hpe hrp hpc hrc hcnodup hcid pid,
      if_neg (fun h => hrp h.symm), if_pos rfl]
  · intro c hc
    have hcr : ¬ c = rid := fun h => hrc (h ▸ hc)
    have hcp : ¬ c = pid := fun h => hpc (h ▸ hc)
    show entriesLookup _ c = _
    rw [delete_nonroot_final_lookup m rid pid e pe hpe hrp hpc hrc hcnodup hcid c,
      if_neg hcr, if_neg hcp, if_pos hc, hpid]
    rfl
  · intro k hkr hkp hkc
    show entriesLookup _ k = _
    rw [delete_nonroot_final_lookup m rid pid e pe hpe hrp hpc hrc hcnodup hcid k,
      if_neg hkr, if_neg hkp, if_neg hkc]
    rfl

/-- Witness for the C10 theorem: the concrete chain a1 -> b1 -> c1 with
b1 deleted, every hypothesis discharged by evaluation. -/
theorem delete_nonroot_frame_witness :
    WF chainManager ∧
    get_reflection_by_id chainManager "b1" = some entryB ∧
    entryB.parent_id = some "a1" ∧
    get_reflection_by_id chainManager "a1" = some entryA ∧
    ∃ m' : ReflectionManager,
      delete_reflection_by_id (0+1) chainManager "b1" = .ok (true, m') ∧
      m'.original_entry_id = chainManager.original_entry_id ∧
      m'.reflection_entries.length + 1 = chainManager.reflection_entries.length ∧
      get_reflection_by_id m' "b1" = none ∧
      get_reflection_by_id m' "a1" =
        some { entryA with children_ids := listRemoveFirst entryA.children_ids "b1" ++ entryB.children_ids } ∧
      (∀ c ∈ entryB.children_ids,
        get_reflection_by_id m' c =
          (get_reflection_by_id chainManager c).map
            (fun x => { x with parent_id := some "a1" })) ∧
      ∀ k, k ≠ "b1" → k ≠ "a1" → k ∉ entryB.children_ids →
        get_reflection_by_id m' k = get_reflection_by_id chainManager k := by
  have hwf : WF chainManager :=
    ⟨by decide, by decide, by decide, by decide, by decide, ⟨chainRank, by decide⟩⟩
  exact ⟨hwf, by decide, by decide, by decide,
    delete_nonroot_frame chainManager "b1" "a1" entryB entryA 0 hwf
      (by decide) (by decide) (by decide)⟩

theorem listRemoveFirst_self_not_mem (l : List String) (x : String) (h : l.Nodup) :
    x ∉ listRemoveFirst l x := by
  induction l with
  | nil => simp [listRemoveFirst]
  | cons a l ih =>
    by_cases hax : a = x
    · subst hax
      rw [listRemoveFirst, if_pos rfl]
      exact (List.nodup_cons.1 h).1
    · rw [listRemoveFirst, if_neg hax]
      intro hmem
      rcases List.mem_cons.1 hmem with h1 | h1
      · exact hax h1.symm
      · exact ih (List.nodup_cons.1 h).2 h1

theorem mem_listRemoveFirst (l : List String) (x y : String)
    (h : y ∈ listRemoveFirst l x) : y ∈ l := by
  induction l with
  | nil => simp [listRemoveFirst] at h
  | cons a l ih =>
    by_cases hax : a = x
    · rw [listRemoveFirst, if_pos hax] at h
      exact List.mem_cons_of_mem a h
    · rw [listRemoveFirst, if_neg hax] at h
      rcases List.mem_cons.1 h with h1 | h1
      · exact h1 ▸ List.mem_cons_self a l
      · exact List.mem_cons_of_mem a (ih h1)

/-- Claim C5: reparenting on delete of a middle node.  For a
well-formed tree in which node B has parent A and child C, deleting B
succeeds, C's parent becomes A, C is listed among A's children, B no
longer is, and B's binding is gone. -/
theorem delete_middle_reparents
    (m : ReflectionManager) (aid bid cid : String) (ea eb ec : ReflectionEntry) (f : Nat)
    (hwf : WF m)
    (ha : get_reflection_by_id m aid = some ea)
    (hb : get_reflection_by_id m bid = some eb)
    (hc : get_reflection_by_id m cid = some ec)
    (hbpar : eb.parent_id = some aid)
    (hcpar : ec.parent_id = some bid) :
    ∃ m' : ReflectionManager,
      delete_reflection_by_id (f+1) m bid = .ok (true, m') ∧
      (∃ ec', get_reflection_by_id m' cid = some ec' ∧ ec'.parent_id = some aid) ∧
      (∃ ea', get_reflection_by_id m' aid = some ea' ∧ cid ∈ ea'.children_ids ∧
        bid ∉ ea'.children_ids) ∧
      get_reflection_by_id m' bid = none := by
  obtain ⟨hpne, hmem, hrp, hpc, hrc, hcpres, hcnodup, hcid, heid, hpid⟩ :=
    wf_nonroot_facts m bid aid eb ea hwf hb hbpar ha
  have hmemB : (bid, eb) ∈ m.reflection_entries := mem_of_entriesLookup _ _ _ hb
  have hmemC : (cid, ec) ∈ m.reflection_entries := mem_of_entriesLookup _ _ _ hc
  have hmemA : (aid, ea) ∈ m.reflection_entries := mem_of_entriesLookup _ _ _ ha
  have hids := (idsMatchB_iff m.reflection_entries).1 hwf.idsMatch
  have hcin : cid ∈ eb.children_ids := by
    obtain ⟨_, hbd⟩ := (treeConsistentB_iff m).1 hwf.consistent
    have := (hbd (cid, ec) hmemC (bid, eb) hmemB).1
    have h2 := this (by rw [hcpar, hids (bid, eb) hmemB])
    rwa [hids (cid, ec) hmemC] at h2
  obtain ⟨m', heq, horig, hlen, hbnone, hafinal, hchildren, hframe⟩ :=
    delete_nonroot_frame m bid aid eb ea f hwf hb hbpar ha
  refine ⟨m', heq, ?_, ?_, hbnone⟩
  · refine ⟨{ (get_reflection_by_id m cid).getD default with parent_id := some aid }, ?_, rfl⟩
    rw [hchildren cid hcin, hc]
    rfl
  · refine ⟨{ ea with children_ids := listRemoveFirst ea.children_ids bid ++ eb.children_ids },
      hafinal, ?_, ?_⟩
    · exact List.mem_append.2 (Or.inr hcin)
    · intro hbad
      rcases List.mem_append.1 hbad with h1 | h1
      · exact listRemoveFirst_self_not_mem ea.children_ids bid
          (hwf.childNodup (aid, ea) hmemA) h1
      · exact hrc h1

/-- Witness for the C5 theorem at the concrete chain a1 -> b1 -> c1. -/
theorem delete_middle_reparents_witness :
    WF chainManager ∧
    get_reflection_by_id chainManager "b1" = some entryB ∧
    entryB.parent_id = some "a1" ∧
    entryC.parent_id = some "b1" ∧
    ∃ m' : ReflectionManager,
      delete_reflection_by_id (0+1) chainManager "b1" = .ok (true, m') ∧
      (∃ ec', get_reflection_by_id m' "c1" = some ec' ∧ ec'.parent_id = some "a1") ∧
      (∃ ea', get_reflection_by_id m' "a1" = some ea' ∧ "c1" ∈ ea'.children_ids ∧
        "b1" ∉ ea'.children_ids) ∧
      get_reflection_by_id m' "b1" = none := by
  have hwf : WF chainManager :=
    ⟨by decide, by decide, by decide, by decide, by decide, ⟨chainRank, by decide⟩⟩
  exact ⟨hwf, by decide, by decide, by decide,
    delete_middle_reparents chainManager "a1" "b1" "c1" entryA entryB entryC 0 hwf
      (by decide) (by decide) (by decide) (by decide) (by decide)⟩

theorem sentimentStr_ne_empty (s : Sentiment) : (sentimentStr s != "") = true := by
  cases s <;> decide

/-- Claim C6: analysis is idempotent.  A stored node whose themes list
is non-empty (the state a first successful analysis leaves behind,
where the answer is still set) makes a further
`analyze_reflection_by_id` return true and leave the whole manager
state exactly as it is; the result does not depend on the Analysis
Client or on the fresh-id supply, so no client call is observable. -/
theorem analyze_idempotent
    (client : String → String → Languages → Option ReflectionAnalysis)
    (fresh : Nat → String) (m : ReflectionManager) (rid : String) (e : ReflectionEntry)
    (he : get_reflection_by_id m rid = some e)
    (hans : optTruthy e.answer = true)
    (hthemes : e.themes ≠ []) :
    analyze_reflection_by_id client fresh m rid = (true, m) := by
  have hs : (sentimentStr e.sentiment != "") = true := sentimentStr_ne_empty e.sentiment
  have ht : e.themes.isEmpty = false := by
    cases h : e.themes with
    | nil => exact absurd h hthemes
    | cons a l => rfl
  rw [get_reflection_by_id] at he
  unfold analyze_reflection_by_id
  rw [he]
  simp [hans, ht, hs]

/-- Witness for the C6 theorem: the lone analyzed node z1; any client
(here the always-failing one) leaves the state untouched. -/
theorem analyze_idempotent_witness :
    get_reflection_by_id analyzedManager "z1" = some analyzedEntry ∧
    optTruthy analyzedEntry.answer = true ∧
    analyzedEntry.themes ≠ [] ∧
    analyze_reflection_by_id noneClient freshIds analyzedManager "z1" =
      (true, analyzedManager) :=
  ⟨by decide, by decide, by decide,
    analyze_idempotent noneClient freshIds analyzedManager "z1" analyzedEntry
      (by decide) (by decide) (by decide)⟩

/-- Claim C7: analysis fails atomically.  If the node is absent, or its
answer is falsy, or the node is unanalyzed and the Analysis Client
returns nothing for it, the call returns false and the whole manager
state (every node included) is exactly the pre-call state. -/
theorem analyze_fails_atomically
    (client : String → String → Languages → Option ReflectionAnalysis)
    (fresh : Nat → String) (m : ReflectionManager) (rid : String) :
    (get_reflection_by_id m rid = none →
      analyze_reflection_by_id client fresh m rid = (false, m)) ∧
    (∀ e, get_reflection_by_id m rid = some e → optTruthy e.answer = false →
      analyze_reflection_by_id client fresh m rid = (false, m)) ∧
    (∀ e, get_reflection_by_id m rid = some e → optTruthy e.answer = true →
      e.themes = [] → client e.question (e.answer.getD "") e.language = none →
      analyze_reflection_by_id client fresh m rid = (false, m)) := by
  refine ⟨?_, ?_, ?_⟩
  · intro hnone
    rw [get_reflection_by_id] at hnone
    unfold analyze_reflection_by_id
    rw [hnone]
  · intro e he hans
    rw [get_reflection_by_id] at he
    unfold analyze_reflection_by_id
    rw [he]
    simp [hans]
  · intro e he hans hthemes hclient
    rw [get_reflection_by_id] at he
    have ht : e.themes.isEmpty = true := by rw [hthemes]; rfl
    unfold analyze_reflection_by_id
    rw [he]
    simp [hans, ht, hclient]

/-- Witness for the C7 theorem: the three failure scenarios evaluated
on concrete managers (absent id, unanswered node, failing client). -/
theorem analyze_fails_atomically_witness :
    (get_reflection_by_id emptyManager "q" = none ∧
      analyze_reflection_by_id noneClient freshIds emptyManager "q" =
        (false, emptyManager)) ∧
    (get_reflection_by_id unansweredManager "w1" = some unansweredLone ∧
      optTruthy unansweredLone.answer = false ∧
      analyze_reflection_by_id noneClient freshIds unansweredManager "w1" =
        (false, unansweredManager)) ∧
    (get_reflection_by_id answeredManager "v1" = some answeredLone ∧
      optTruthy answeredLone.answer = true ∧
      answeredLone.themes = [] ∧
      noneClient answeredLone.question (answeredLone.answer.getD "") answeredLone.language
        = none ∧
      analyze_reflection_by_id noneClient freshIds answeredManager "v1" =
        (false, answeredManager)) :=
  ⟨⟨by decide,
    (analyze_fails_atomically noneClient freshIds emptyManager "q").1 (by decide)⟩,
   ⟨by decide, by decide,
    (analyze_fails_atomically noneClient freshIds unansweredManager "w1").2.1
      unansweredLone (by decide) (by decide)⟩,
   ⟨by decide, by decide, by decide, by decide,
    (analyze_fails_atomically noneClient freshIds answeredManager "v1").2.2
      answeredLone (by decide) (by decide) (by decide) (by decide)⟩⟩

theorem entriesUpdate_congr (es : Entries) (k : String)
    (f g : ReflectionEntry → ReflectionEntry) (h : ∀ x, f x = g x) :
    entriesUpdate es k f = entriesUpdate es k g := by
  unfold entriesUpdate
  exact List.map_congr_left (fun kv _ => by by_cases hk : kv.1 = k <;> simp [hk, h])

theorem entriesUpdate_id (es : Entries) (k : String) :
    entriesUpdate es k (fun x => x) = es := by
  unfold entriesUpdate
  refine List.map_congr_left (fun kv _ => ?_) |>.trans (List.map_id es)
  by_cases hk : kv.1 = k
  · rw [if_pos hk]
    rfl
  · rw [if_neg hk]
    rfl

theorem entriesUpdate_singleton_other (a k : String) (v : ReflectionEntry)
    (f : ReflectionEntry → ReflectionEntry) (h : ¬ a = k) :
    entriesUpdate [(a, v)] k f = [(a, v)] := by
  simp [entriesUpdate, h]

theorem insertChildrenLoop_eq (fresh : Nat → String) (parentId parentKey : String)
    (lang : Languages) (i : Nat) (m : ReflectionManager) (bs : List Belief)
    (horig : optTruthy m.original_entry_id = true)
    (hkey : parentKey ∈ entryKeys m.reflection_entries)
    (habs : ∀ j, j < bs.length → fresh (i + j) ∉ entryKeys m.reflection_entries)
    (hdist : ∀ j k, j < k → k < bs.length → fresh (i + j) ≠ fresh (i + k)) :
    insertChildrenLoop fresh parentId parentKey lang i m bs =
      ReflectionManager.mk m.original_entry_id
        (entriesUpdate m.reflection_entries parentKey
          (fun x => { x with children_ids := x.children_ids ++ newChildIds fresh i bs })
          ++ newChildEntries fresh parentId lang i bs) := by
  induction bs generalizing i m with
  | nil =>
    have h1 : entriesUpdate m.reflection_entries parentKey
        (fun x => { x with children_ids := x.children_ids ++ newChildIds fresh i [] })
        = m.reflection_entries := by
      rw [entriesUpdate_congr _ _ _ (fun x => x) (fun x => by simp [newChildIds]),
        entriesUpdate_id]
    rw [insertChildrenLoop, h1]
    simp [newChildEntries]
  | cons b bs ih =>
    have hlen : (b :: bs).length = bs.length + 1 := List.length_cons b bs
    have hfi : fresh i ∉ entryKeys m.reflection_entries := by
      have := habs 0 (Nat.succ_pos bs.length)
      simpa using this
    have hfik : fresh i ≠ parentKey := fun h => hfi (h ▸ hkey)
    rw [insertChildrenLoop]
    have hup : (upsert_reflection m (childOfBelief fresh parentId lang i b)).2 =
        ReflectionManager.mk m.original_entry_id
          (m.reflection_entries ++ [(fresh i, childOfBelief fresh parentId lang i b)]) := by
      unfold upsert_reflection
      rw [horig]
      simp only []
      rw [entriesInsert_of_not_mem _ _ _ (by simpa [childOfBelief] using hfi)]
      rfl
    rw [hup]
    have hm2 : entriesUpdate
        (m.reflection_entries ++ [(fresh i, childOfBelief fresh parentId lang i b)])
        parentKey
        (fun x => { x with children_ids :=
          x.children_ids ++ [(childOfBelief fresh parentId lang i b).id] }) =
        entriesUpdate m.reflection_entries parentKey
          (fun x => { x with children_ids := x.children_ids ++ [fresh i] })
          ++ [(fresh i, childOfBelief fresh parentId lang i b)] := by
      rw [entriesUpdate_append, entriesUpdate_singleton_other _ _ _ _ hfik]
      rfl
    rw [hm2]
    have horig2 : optTruthy (ReflectionManager.mk m.original_entry_id
        (entriesUpdate m.reflection_entries parentKey
          (fun x => { x with children_ids := x.children_ids ++ [fresh i] })
          ++ [(fresh i, childOfBelief fresh parentId lang i b)])).original_entry_id
        = true := horig
    have hkeys2 : entryKeys (entriesUpdate m.reflection_entries parentKey
          (fun x => { x with children_ids := x.children_ids ++ [fresh i] })
          ++ [(fresh i, childOfBelief fresh parentId lang i b)])
        = entryKeys m.reflection_entries ++ [fresh i] := by
      rw [entryKeys_append, entryKeys_update]
      rfl
    have habs2 : ∀ j, j < bs.length →
        fresh ((i+1) + j) ∉ entryKeys (entriesUpdate m.reflection_entries parentKey
          (fun x => { x with children_ids := x.children_ids ++ [fresh i] })
          ++ [(fresh i, childOfBelief fresh parentId lang i b)]) := by
      intro j hj
      rw [hkeys2]
      intro hmem
      rcases List.mem_append.1 hmem with h1 | h1
      · have : (i+1) + j = i + (j+1) := by omega
        exact habs (j+1) (by omega) (this ▸ h1)
      · have h2 : fresh ((i+1) + j) = fresh i := by simpa using h1
        have : (i+1) + j = i + (j+1) := by omega
        rw [this] at h2
        exact hdist 0 (j+1) (Nat.succ_pos j) (by omega) (by simpa using h2.symm)
    have hdist2 : ∀ j k, j < k → k < bs.length →
        fresh ((i+1) + j) ≠ fresh ((i+1) + k) := by
      intro j k hjk hk
      have e1 : (i+1) + j = i + (j+1) := by omega
      have e2 : (i+1) + k = i + (k+1) := by omega
      rw [e1, e2]
      exact hdist (j+1) (k+1) (by omega) (by omega)
    rw [ih (i+1) _ horig2 (by rw [hkeys2]; exact List.mem_append.2 (Or.inl hkey)) habs2 hdist2]
    simp only []
    rw [entriesUpdate_append, entriesUpdate_singleton_other _ _ _ _ hfik,
      entriesUpdate_update]
    rw [newChildIds, newChildEntries]
    have hcomp : entriesUpdate m.reflection_entries parentKey
        (fun x => { ({ x with children_ids := x.children_ids ++ [fresh i] } : ReflectionEntry)
          with children_ids :=
            ({ x with children_ids := x.children_ids ++ [fresh i] } : ReflectionEntry).children_ids
              ++ newChildIds fresh (i+1) bs }) =
        entriesUpdate m.reflection_entries parentKey
          (fun x => { x with children_ids :=
            x.children_ids ++ (fresh i :: newChildIds fresh (i+1) bs) }) := by
      exact entriesUpdate_congr _ _ _ _ (fun x => by simp)
    rw [hcomp]
    simp

theorem newChildEntries_keys (fresh : Nat → String) (pid : String) (lang : Languages)
    (i : Nat) (bs : List Belief) :
    entryKeys (newChildEntries fresh pid lang i bs) = newChildIds fresh i bs := by
  induction bs generalizing i with
  | nil => rfl
  | cons b bs ih => simp [newChildEntries, newChildIds, entryKeys, ih (i+1), entryKeys] at *
                    exact ih (i+1)

theorem newChildIds_length (fresh : Nat → String) (i : Nat) (bs : List Belief) :
    (newChildIds fresh i bs).length = bs.length := by
  induction bs generalizing i with
  | nil => rfl
  | cons b bs ih => simp [newChildIds, ih (i+1)]

theorem mem_newChildIds (fresh : Nat → String) (i : Nat) (bs : List Belief) (x : String)
    (h : x ∈ newChildIds fresh i bs) : ∃ j, j < bs.length ∧ x = fresh (i + j) := by
  induction bs generalizing i with
  | nil => simp [newChildIds] at h
  | cons b bs ih =>
    rw [newChildIds] at h
    rcases List.mem_cons.1 h with h1 | h1
    · exact ⟨0, Nat.succ_pos bs.length, by simpa using h1⟩
    · obtain ⟨j, hj, hx⟩ := ih (i+1) h1
      exact ⟨j+1, by simpa using Nat.succ_lt_succ hj, by rw [hx]; congr 1; omega⟩

theorem entriesLookup_newChildEntries (fresh : Nat → String) (pid : String)
    (lang : Languages) (i : Nat) (bs : List Belief) (j : Nat) (hj : j < bs.length)
    (hdist : ∀ a b, a < b → b < bs.length → fresh (i + a) ≠ fresh (i + b)) :
    entriesLookup (newChildEntries fresh pid lang i bs) (fresh (i + j)) =
      some (childOfBelief fresh pid lang (i + j) (bs.get ⟨j, hj⟩)) := by
  induction bs generalizing i j with
  | nil => exact absurd hj (by simp)
  | cons b bs ih =>
    have hlen : (b :: bs).length = bs.length + 1 := List.length_cons b bs
    rw [newChildEntries]
    cases j with
    | zero =>
      rw [entriesLookup_cons, if_pos (by rw [Nat.add_zero])]
      congr 1
    | succ jj =>
      have hne : fresh i ≠ fresh (i + (jj+1)) := by
        have := hdist 0 (jj+1) (Nat.succ_pos jj) (by omega)
        simpa using this
      rw [entriesLookup_cons, if_neg hne]
      have e1 : i + (jj + 1) = (i+1) + jj := by omega
      have hj' : jj < bs.length := by omega
      have hdist' : ∀ a c, a < c → c < bs.length →
          fresh ((i+1) + a) ≠ fresh ((i+1) + c) := by
        intro a c hac hc
        have ea : (i+1) + a = i + (a+1) := by omega
        have ec : (i+1) + c = i + (c+1) := by omega
        rw [ea, ec]
        exact hdist (a+1) (c+1) (by omega) (by omega)
      rw [e1, ih (i+1) jj hj' hdist']
      congr 1

theorem analyze_success_eq
    (client : String → String → Languages → Option ReflectionAnalysis)
    (fresh : Nat → String) (m : ReflectionManager) (rid : String)
    (e : ReflectionEntry) (analysis : ReflectionAnalysis)
    (he : get_reflection_by_id m rid = some e)
    (hans : optTruthy e.answer = true)
    (hthemes : e.themes = [])
    (hclient : client e.question (e.answer.getD "") e.language = some analysis)
    (horig : optTruthy m.original_entry_id = true)
    (habs : ∀ j, j < analysis.beliefs.length → fresh j ∉ entryKeys m.reflection_entries)
    (hdist : ∀ j k, j < k → k < analysis.beliefs.length → fresh j ≠ fresh k) :
    analyze_reflection_by_id client fresh m rid =
      (true, ReflectionManager.mk m.original_entry_id
        (entriesUpdate m.reflection_entries rid
          (fun x => { x with
                      themes := analysis.themes,
                      sentiment := analysis.sentiment,
                      children_ids := x.children_ids ++ newChildIds fresh 0 analysis.beliefs })
          ++ newChildEntries fresh e.id e.language 0 analysis.beliefs)) := by
  have hrid : rid ∈ entryKeys m.reflection_entries := by
    rw [get_reflection_by_id] at he
    exact (entriesLookup_isSome_iff _ _).1 (by simp [he])
  have ht : e.themes.isEmpty = true := by rw [hthemes]; rfl
  rw [get_reflection_by_id] at he
  unfold analyze_reflection_by_id
  rw [he]
  simp only [hans, Bool.not_true, Bool.false_eq_true, if_false, ht, Bool.false_and,
    hclient]
  have hloop := insertChildrenLoop_eq fresh e.id rid e.language 0
    (ReflectionManager.mk m.original_entry_id
      (entriesUpdate m.reflection_entries rid
        (fun x => { x with themes := analysis.themes, sentiment := analysis.sentiment })))
    analysis.beliefs horig
    (by simpa [entryKeys_update] using hrid)
    (by intro j hj
        simp only [entryKeys_update]
        simpa using habs j hj)
    (by intro j k hjk hk
        simpa using hdist j k hjk hk)
  rw [hloop]
  simp only []
  rw [entriesUpdate_update]

theorem newChildEntries_length (fresh : Nat → String) (pid : String) (lang : Languages)
    (i : Nat) (bs : List Belief) :
    (newChildEntries fresh pid lang i bs).length = bs.length := by
  have h := congrArg List.length (newChildEntries_keys fresh pid lang i bs)
  simpa [entryKeys, newChildIds_length] using h

/-- Claim C8: successful analysis of an answered, unanalyzed node sets
its themes and sentiment from the client response, inserts exactly one
new child per returned belief (in response order, with question =
challenge_question, context = statement, context_type = belief_type,
parent_id = the analyzed node's id, language inherited, everything else
at defaults), appends the fresh ids to the node's children list,
touches nothing else, and in the lone-answered-root scenario with one
belief and non-empty themes the statistics become (1, 2). -/
theorem analyze_success_spec
    (client : String → String → Languages → Option ReflectionAnalysis)
    (fresh : Nat → String) (m : ReflectionManager) (rid : String)
    (e : ReflectionEntry) (analysis : ReflectionAnalysis)
    (he : get_reflection_by_id m rid = some e)
    (heid : e.id = rid)
    (hans : optTruthy e.answer = true)
    (hthemes : e.themes = [])
    (hclient : client e.question (e.answer.getD "") e.language = some analysis)
    (horig : optTruthy m.original_entry_id = true)
    (habs : ∀ j, j < analysis.beliefs.length → fresh j ∉ entryKeys m.reflection_entries)
    (hdist : ∀ j k, j < k → k < analysis.beliefs.length → fresh j ≠ fresh k) :
    ∃ m' : ReflectionManager,
      analyze_reflection_by_id client fresh m rid = (true, m') ∧
      m'.original_entry_id = m.original_entry_id ∧
      m'.reflection_entries.length =
        m.reflection_entries.length + analysis.beliefs.length ∧
      get_reflection_by_id m' rid =
        some { e with
               themes := analysis.themes,
               sentiment := analysis.sentiment,
               children_ids := e.children_ids ++ newChildIds fresh 0 analysis.beliefs } ∧
      (∀ j (hj : j < analysis.beliefs.length),
        get_reflection_by_id m' (fresh j) =
          some { id := fresh j,
                 question := (analysis.beliefs.get ⟨j, hj⟩).challenge_question,
                 answer := none,
                 themes := [],
                 sentiment := .Neutral,
                 context_type := contextTypeOfBelief (analysis.beliefs.get ⟨j, hj⟩).belief_type,
                 context := some (analysis.beliefs.get ⟨j, hj⟩).statement,
                 parent_id := some rid,
                 children_ids := [],
                 language := e.language }) ∧
      (∀ k, k ≠ rid → k ∉ newChildIds fresh 0 analysis.beliefs →
        get_reflection_by_id m' k = get_reflection_by_id m k) ∧
      (m.reflection_entries.length = 1 → analysis.beliefs.length = 1 →
        analysis.themes ≠ [] → get_statistics m' = (1, 2)) := by
  have hrid : rid ∈ entryKeys m.reflection_entries := by
    rw [get_reflection_by_id] at he
    exact (entriesLookup_isSome_iff _ _).1 (by simp [he])
  have heq := analyze_success_eq client fresh m rid e analysis he hans hthemes hclient
    horig habs hdist
  refine ⟨_, heq, rfl, ?_, ?_, ?_, ?_, ?_⟩
  · simp only [List.length_append, entriesUpdate_length,
      newChildEntries_length]
  · rw [get_reflection_by_id] at he ⊢
    simp only [entriesLookup_append, entriesLookup_update, if_pos rfl, he, Option.map_some]
    rfl
  · intro j hj
    have hfj : fresh j ∉ entryKeys m.reflection_entries := habs j hj
    have hne : ¬ fresh j = rid := fun h => hfj (h ▸ hrid)
    have hnone : entriesLookup m.reflection_entries (fresh j) = none :=
      (entriesLookup_eq_none_iff _ _).2 hfj
    rw [get_reflection_by_id]
    simp only [entriesLookup_append, entriesLookup_update, if_neg hne, hnone,
      Option.map_none, Option.none_or]
    have hj0 : fresh j = fresh (0 + j) := by rw [Nat.zero_add]
    have hd0 : ∀ a b, a < b → b < analysis.beliefs.length →
        fresh (0 + a) ≠ fresh (0 + b) := by
      intro a b hab hb
      rw [Nat.zero_add, Nat.zero_add]
      exact hdist a b hab hb
    rw [hj0, entriesLookup_newChildEntries fresh e.id e.language 0 analysis.beliefs j hj hd0]
    rw [childOfBelief, heid]
  · intro k hkr hkn
    have hknN : entriesLookup (newChildEntries fresh e.id e.language 0 analysis.beliefs) k
        = none := by
      rw [entriesLookup_eq_none_iff, newChildEntries_keys]
      exact hkn
    rw [get_reflection_by_id, get_reflection_by_id]
    simp only [entriesLookup_append, entriesLookup_update, if_neg hkr, hknN, Option.or_none]
  · intro hlen1 hblen hth
    obtain ⟨kv, hkv⟩ := List.length_eq_one.1 hlen1
    have hmemE : (rid, e) ∈ m.reflection_entries := by
      rw [get_reflection_by_id] at he
      exact mem_of_entriesLookup _ _ _ he
    have hkve : kv = (rid, e) := by
      rw [hkv] at hmemE
      exact (List.mem_singleton.1 hmemE).symm
    obtain ⟨b, hb⟩ := List.length_eq_one.1 hblen
    have hthf : analysis.themes.isEmpty = false := by
      cases h : analysis.themes with
      | nil => exact absurd h hth
      | cons a l => rfl
    rw [get_statistics]
    simp only [hkv, hkve, hb, entriesUpdate, List.map_cons, List.map_nil, if_pos rfl,
      newChildEntries, newChildIds, childOfBelief]
    simp [List.filter, hthf]

/-- Witness for the C8 theorem: the lone answered root v1 analyzed with
a one-belief response; statistics end up at (1, 2). -/
theorem analyze_success_spec_witness :
    get_reflection_by_id answeredManager "v1" = some answeredLone ∧
    answeredLone.id = "v1" ∧
    optTruthy answeredLone.answer = true ∧
    answeredLone.themes = [] ∧
    oneBeliefClient answeredLone.question (answeredLone.answer.getD "")
      answeredLone.language = some oneBeliefAnalysis ∧
    optTruthy answeredManager.original_entry_id = true ∧
    ∃ m' : ReflectionManager,
      analyze_reflection_by_id oneBeliefClient freshIds answeredManager "v1" = (true, m') ∧
      m'.original_entry_id = answeredManager.original_entry_id ∧
      m'.reflection_entries.length =
        answeredManager.reflection_entries.length + oneBeliefAnalysis.beliefs.length ∧
      get_reflection_by_id m' "v1" =
        some { answeredLone with
               themes := oneBeliefAnalysis.themes,
               sentiment := oneBeliefAnalysis.sentiment,
               children_ids := answeredLone.children_ids ++
                 newChildIds freshIds 0 oneBeliefAnalysis.beliefs } ∧
      (∀ j (hj : j < oneBeliefAnalysis.beliefs.length),
        get_reflection_by_id m' (freshIds j) =
          some { id := freshIds j,
                 question := (oneBeliefAnalysis.beliefs.get ⟨j, hj⟩).challenge_question,
                 answer := none,
                 themes := [],
                 sentiment := .Neutral,
                 context_type :=
                   contextTypeOfBelief (oneBeliefAnalysis.beliefs.get ⟨j, hj⟩).belief_type,
                 context := some (oneBeliefAnalysis.beliefs.get ⟨j, hj⟩).statement,
                 parent_id := some "v1",
                 children_ids := [],
                 language := answeredLone.language }) ∧
      (∀ k, k ≠ "v1" → k ∉ newChildIds freshIds 0 oneBeliefAnalysis.beliefs →
        get_reflection_by_id m' k = get_reflection_by_id answeredManager k) ∧
      (answeredManager.reflection_entries.length = 1 →
        oneBeliefAnalysis.beliefs.length = 1 →
        oneBeliefAnalysis.themes ≠ [] → get_statistics m' = (1, 2)) :=
  ⟨by decide, by decide, by decide, by decide, by decide, by decide,
    analyze_success_spec oneBeliefClient freshIds answeredManager "v1" answeredLone
      oneBeliefAnalysis (by decide) (by decide) (by decide) (by decide) (by decide)
      (by decide)
      (by intro j hj
          have hlen : oneBeliefAnalysis.beliefs.length = 1 := by decide
          have hj0 : j = 0 := by omega
          subst hj0
          decide)
      (by intro j k hjk hk
          have hlen : oneBeliefAnalysis.beliefs.length = 1 := by decide
          omega)⟩

/-- Counterexample to claim C3 as stated: in the concrete tree r2 (answered)
-> u2 (unanswered) -> d2 (answered), the report rendered at r2 is exactly
r2's own block; the answered grandchild's question "DQ" and answer "DA" do
NOT appear — an unanswered node prunes its entire subtree, its answered
descendants are not recursed into. -/
theorem report_counterexample :
    get_recursive_report 3 reportManager "r2" "# " = .ok "# RQ\n\nRA\n\n" ∧
    optTruthy repU.answer = false ∧
    optTruthy repD.answer = true ∧
    ¬ strContains "# RQ\n\nRA\n\n" "DQ" ∧
    ¬ strContains "# RQ\n\nRA\n\n" "DA" := by
  refine ⟨?_, by decide, by decide, by decide, by decide⟩
  simp [get_recursive_report, reportChildrenLoop, reportManager, repRoot, repU, repD,
    getChildrenLoop, entriesLookup, entryText, optTruthy, List.find?]

/-- Claim C3 (amended): the report assembler fails closed and prunes
whole subtrees.  Rendering at an absent node or at an unanswered node
returns the empty string — so an unanswered child contributes nothing,
including all of its descendants (answered or not); a node whose only
child is unanswered renders exactly its own text block. -/
theorem report_prunes_unanswered :
    (∀ f m eid pfx, get_reflection_by_id m eid = none →
      get_recursive_report (f+1) m eid pfx = .ok "") ∧
    (∀ f m eid pfx e, get_reflection_by_id m eid = some e →
      optTruthy e.answer = false →
      get_recursive_report (f+1) m eid pfx = .ok "") ∧
    (∀ f m rid pfx e uid u, get_reflection_by_id m rid = some e →
      optTruthy e.answer = true →
      e.children_ids = [uid] →
      get_reflection_by_id m uid = some u →
      u.id = uid →
      optTruthy u.answer = false →
      get_recursive_report (f+2) m rid pfx = .ok (entryText pfx e)) := by
  refine ⟨?_, ?_, ?_⟩
  · intro f m eid pfx hnone
    rw [get_reflection_by_id] at hnone
    rw [get_recursive_report, hnone]
  · intro f m eid pfx e he hans
    rw [get_reflection_by_id] at he
    rw [get_recursive_report, he]
    simp [hans]
  · intro f m rid pfx e uid u he hans hch hu huid huans
    rw [get_reflection_by_id] at he hu
    have hloop : getChildrenLoop m.reflection_entries e.children_ids = .ok [u] := by
      rw [hch]
      simp [getChildrenLoop, hu]
    have hrecu : get_recursive_report (f+1) m u.id ("#" ++ pfx ++ " ") = .ok "" := by
      rw [get_recursive_report, huid, hu]
      simp [huans]
    rw [get_recursive_report, he]
    simp only [hans, Bool.not_true, Bool.false_eq_true, if_false, hloop]
    rw [reportChildrenLoop, hrecu, reportChildrenLoop]
    simp

/-- Witness for the amended C3 theorem: the three clauses instantiated
at the concrete report scenario. -/
theorem report_prunes_unanswered_witness :
    (get_reflection_by_id reportManager "zz" = none ∧
      get_recursive_report (2+1) reportManager "zz" "# " = .ok "") ∧
    (get_reflection_by_id reportManager "u2" = some repU ∧
      optTruthy repU.answer = false ∧
      get_recursive_report (2+1) reportManager "u2" "## " = .ok "") ∧
    (get_reflection_by_id reportManager "r2" = some repRoot ∧
      optTruthy repRoot.answer = true ∧
      repRoot.children_ids = ["u2"] ∧
      get_reflection_by_id reportManager "u2" = some repU ∧
      repU.id = "u2" ∧
      optTruthy repU.answer = false ∧
      get_recursive_report (1+2) reportManager "r2" "# " = .ok (entryText "# " repRoot)) :=
  ⟨⟨by decide, report_prunes_unanswered.1 2 reportManager "zz" "# " (by decide)⟩,
   ⟨by decide, by decide,
    report_prunes_unanswered.2.1 2 reportManager "u2" "## " repU (by decide) (by decide)⟩,
   ⟨by decide, by decide, by decide, by decide, by decide, by decide,
    report_prunes_unanswered.2.2 1 reportManager "r2" "# " repRoot "u2" repU
      (by decide) (by decide) (by decide) (by decide) (by decide) (by decide)⟩⟩

/-- Claim C4 evaluated at its failing inputs: `get_children_by_id` on
an id absent from the map raises KeyError (the code indexes the dict
directly instead of returning a value), and
`delete_all_reflections_without_answer` on a map holding an unanswered
node deletes it mid-iteration and the dict iterator then raises
RuntimeError — the Tree Manager does throw for these expected
conditions. -/
theorem tree_manager_raises :
    get_children_by_id emptyManager "missing" = .exn "KeyError" ∧
    delete_all_reflections_without_answer 2 unansweredManager =
      .exn "RuntimeError: dictionary changed size during iteration" := by
  constructor
  · rfl
  · simp [delete_all_reflections_without_answer, delete_reflection_by_id,
      deleteChildrenLoop, unansweredManager, unansweredLone, entriesLookup, entriesErase,
      getChildrenLoop, optTruthy, List.find?]

/-- Claim C9: journal summary generation is all-or-nothing.  It returns
false and leaves the journal state untouched when the assembled report
is empty or either Analysis Client call returns nothing; on success the
synthetic summary node carries question = main_question, answer =
answer_summary, themes and sentiment from the second analysis, and
context = the newline-joined belief_type-colon-statement lines of that
analysis, while the insights come from the first analysis. -/
theorem journal_generation_all_or_nothing
    (clientReport : String → Languages → Option ReportAnalysis)
    (clientReflection : String → String → Languages → Option ReflectionAnalysis)
    (sid : String) (fuel : Nat) (j : JournalManager) :
    (get_report fuel j.reflection_manager = .ok "" →
      generate_journal_entry clientReport clientReflection sid fuel j = .ok (false, j)) ∧
    (∀ report, get_report fuel j.reflection_manager = .ok report → report ≠ "" →
      clientReport report (get_language j.reflection_manager) = none →
      generate_journal_entry clientReport clientReflection sid fuel j = .ok (false, j)) ∧
    (∀ report ra, get_report fuel j.reflection_manager = .ok report → report ≠ "" →
      clientReport report (get_language j.reflection_manager) = some ra →
      clientReflection ra.main_question ra.answer_summary
        (get_language j.reflection_manager) = none →
      generate_journal_entry clientReport clientReflection sid fuel j = .ok (false, j)) ∧
    (∀ report ra rfa, get_report fuel j.reflection_manager = .ok report → report ≠ "" →
      clientReport report (get_language j.reflection_manager) = some ra →
      clientReflection ra.main_question ra.answer_summary
        (get_language j.reflection_manager) = some rfa →
      generate_journal_entry clientReport clientReflection sid fuel j =
        .ok (true, JournalManager.mk j.reflection_manager
          (some { id := sid,
                  question := ra.main_question,
                  answer := some ra.answer_summary,
                  themes := rfa.themes,
                  sentiment := rfa.sentiment,
                  context_type := .Original,
                  context := some (String.intercalate "\n"
                    (rfa.beliefs.map
                      (fun b => beliefTypeStr b.belief_type ++ ": " ++ b.statement))),
                  parent_id := none,
                  children_ids := [],
                  language := get_language j.reflection_manager })
          ra.insights)) := by
  refine ⟨?_, ?_, ?_, ?_⟩
  · intro hrep
    unfold generate_journal_entry
    rw [hrep]
    simp
  · intro report hrep hne hcr
    unfold generate_journal_entry
    rw [hrep]
    simp [hne, hcr]
  · intro report ra hrep hne hcr hca
    unfold generate_journal_entry
    rw [hrep]
    simp [hne, hcr, hca]
  · intro report ra rfa hrep hne hcr hca
    unfold generate_journal_entry
    rw [hrep]
    simp only [hne, if_neg hne, hcr, hca]
    rfl

/-- Witness for the C9 theorem: the four clauses at concrete journals
over the lone answered node (empty report, failing report client,
failing reflection client, full success with the synthetic summary
spelled out). -/
theorem journal_generation_witness :
    (get_report 2 emptyJournal.reflection_manager = .ok "" ∧
      generate_journal_entry reportClientNone noneClient "sid1" 2 emptyJournal =
        .ok (false, emptyJournal)) ∧
    (get_report 2 answeredJournal.reflection_manager = .ok "# QV\n\nAV\n\n" ∧
      reportClientNone "# QV\n\nAV\n\n" (get_language answeredJournal.reflection_manager)
        = none ∧
      generate_journal_entry reportClientNone noneClient "sid1" 2 answeredJournal =
        .ok (false, answeredJournal)) ∧
    (reportClientSome "# QV\n\nAV\n\n" (get_language answeredJournal.reflection_manager)
        = some reportAnalysisSample ∧
      noneClient reportAnalysisSample.main_question reportAnalysisSample.answer_summary
        (get_language answeredJournal.reflection_manager) = none ∧
      generate_journal_entry reportClientSome noneClient "sid1" 2 answeredJournal =
        .ok (false, answeredJournal)) ∧
    (oneBeliefClient reportAnalysisSample.main_question reportAnalysisSample.answer_summary
        (get_language answeredJournal.reflection_manager) = some oneBeliefAnalysis ∧
      generate_journal_entry reportClientSome oneBeliefClient "sid1" 2 answeredJournal =
        .ok (true, JournalManager.mk answeredJournal.reflection_manager
          (some { id := "sid1",
                  question := reportAnalysisSample.main_question,
                  answer := some reportAnalysisSample.answer_summary,
                  themes := oneBeliefAnalysis.themes,
                  sentiment := oneBeliefAnalysis.sentiment,
                  context_type := .Original,
                  context := some (String.intercalate "\n"
                    (oneBeliefAnalysis.beliefs.map
                      (fun b => beliefTypeStr b.belief_type ++ ": " ++ b.statement))),
                  parent_id := none,
                  children_ids := [],
                  language := get_language answeredJournal.reflection_manager })
          reportAnalysisSample.insights)) := by
  have hrep : get_report 2 answeredJournal.reflection_manager = .ok "# QV\n\nAV\n\n" := by
    simp [get_report, get_recursive_report, reportChildrenLoop, answeredJournal,
      answeredManager, answeredLone, entriesLookup, getChildrenLoop, entryText, optTruthy,
      List.find?]
  refine ⟨⟨by decide, ?_⟩, ⟨hrep, by decide, ?_⟩, ⟨by decide, by decide, ?_⟩,
    ⟨by decide, ?_⟩⟩
  · exact (journal_generation_all_or_nothing reportClientNone noneClient "sid1" 2
      emptyJournal).1 (by decide)
  · exact (journal_generation_all_or_nothing reportClientNone noneClient "sid1" 2
      answeredJournal).2.1 "# QV\n\nAV\n\n" hrep (by decide) (by decide)
  · exact (journal_generation_all_or_nothing reportClientSome noneClient "sid1" 2
      answeredJournal).2.2.1 "# QV\n\nAV\n\n" reportAnalysisSample hrep (by decide)
      (by decide) (by decide)
  · exact (journal_generation_all_or_nothing reportClientSome oneBeliefClient "sid1" 2
      answeredJournal).2.2.2 "# QV\n\nAV\n\n" reportAnalysisSample oneBeliefAnalysis hrep
      (by decide) (by decide) (by decide)

theorem entriesUpdate_of_not_mem (es : Entries) (k : String)
    (f : ReflectionEntry → ReflectionEntry) (h : k ∉ entryKeys es) :
    entriesUpdate es k f = es := by
  unfold entriesUpdate
  refine List.map_congr_left (fun kv hkv => ?_) |>.trans (List.map_id es)
  have : ¬ kv.1 = k := fun hc => h (hc ▸ List.mem_map_of_mem (·.1) hkv)
  rw [if_neg this]
  rfl

theorem entriesErase_of_not_mem (es : Entries) (k : String) (h : k ∉ entryKeys es) :
    entriesErase es k = es := by
  apply List.filter_eq_self.2
  intro kv hkv
  simp only [decide_eq_true_eq]
  intro hc
  exact h (hc ▸ List.mem_map_of_mem (·.1) hkv)

theorem deleteRootChildrenLoop_eq (orig : Option String) (r : String) (g : Nat)
    (hr_ne : r ≠ "") :
    ∀ (rest : Entries) (re : ReflectionEntry),
      re.children_ids = entryKeys rest →
      (∀ kv ∈ rest, kv.2.id = kv.1 ∧ kv.2.parent_id = some r ∧ kv.2.children_ids = []) →
      (entryKeys ((r, re) :: rest)).Nodup →
      deleteChildrenLoop (g+1) (ReflectionManager.mk orig ((r, re) :: rest))
          (rest.map (·.2)) =
        .ok (ReflectionManager.mk orig [(r, { re with children_ids := [] })]) := by
  intro rest
  induction rest with
  | nil =>
    intro re hch hrest hnd
    have hre : ({ re with children_ids := [] } : ReflectionEntry) = re := by
      have h0 : re.children_ids = [] := hch
      rw [← h0]
    rw [List.map_nil, deleteChildrenLoop, hre]
  | cons kv rest ih =>
    intro re hch hrest hnd
    obtain ⟨ck, ce⟩ := kv
    have hce := hrest (ck, ce) (List.mem_cons_self _ _)
    have hceid : ce.id = ck := hce.1
    have hcepar : ce.parent_id = some r := hce.2.1
    have hcech : ce.children_ids = [] := hce.2.2
    have hndk : (entryKeys ((r, re) :: (ck, ce) :: rest)).Nodup := hnd
    have hkeys : entryKeys ((r, re) :: (ck, ce) :: rest) = r :: ck :: entryKeys rest := by
      simp [entryKeys]
    have hnd' : (r :: ck :: entryKeys rest).Nodup := by
      rw [hkeys] at hndk
      exact hndk
    have h3 := List.nodup_cons.1 hnd'
    have h4 := List.nodup_cons.1 h3.2
    have hrck : ¬ r = ck := fun h => h3.1 (h ▸ List.mem_cons_self ck (entryKeys rest))
    have hrk : r ∉ entryKeys ((ck, ce) :: rest) := by
      intro hc
      apply h3.1
      simpa [entryKeys] using hc
    have hckrest : ck ∉ entryKeys rest := h4.1
    have hckr : ¬ ck = r := fun h => hrck h.symm
    have hlook : entriesLookup ((r, re) :: (ck, ce) :: rest) ck = some ce := by
      rw [entriesLookup_cons, if_neg hrck, entriesLookup_cons, if_pos rfl]
    have hlookr : entriesLookup ((r, re) :: (ck, ce) :: rest) r = some re := by
      rw [entriesLookup_cons, if_pos rfl]
    have hmem : ck ∈ re.children_ids := by
      rw [hch]
      simp [entryKeys]
    have hdel := delete_nonroot_eq (ReflectionManager.mk orig ((r, re) :: (ck, ce) :: rest))
      ck r ce re g hlook hcepar hr_ne hlookr hmem hckr
      (by rw [hcech]; exact List.not_mem_nil r)
      (by rw [hcech]; exact List.not_mem_nil ck)
      (by rw [hcech]; intro c hc; exact absurd hc (List.not_mem_nil c))
      (by rw [hcech]; exact List.nodup_nil)
      (by rw [hcech]; intro c hc; exact absurd hc (List.not_mem_nil c))
    rw [List.map_cons, deleteChildrenLoop, hceid, hdel]
    have hupd : entriesUpdate ((r, re) :: (ck, ce) :: rest) r
        (fun x => { x with children_ids := listRemoveFirst x.children_ids ck }) =
        (r, { re with children_ids := entryKeys rest }) :: (ck, ce) :: rest := by
      rw [entriesUpdate_cons, if_pos rfl]
      congr 1
      · have : listRemoveFirst re.children_ids ck = entryKeys rest := by
          rw [hch]
          simp [entryKeys, listRemoveFirst]
        simp [this]
      · exact entriesUpdate_of_not_mem _ _ _ hrk
    have hrep : reparentLoop re.id r
        (entriesUpdate ((r, re) :: (ck, ce) :: rest) r
          (fun x => { x with children_ids := listRemoveFirst x.children_ids ck }))
        (ce.children_ids.map (lookupD ((r, re) :: (ck, ce) :: rest))) =
        (r, { re with children_ids := entryKeys rest }) :: (ck, ce) :: rest := by
      rw [hcech, List.map_nil, reparentLoop, hupd]
    rw [hrep]
    have herase : entriesErase
        ((r, { re with children_ids := entryKeys rest }) :: (ck, ce) :: rest) ck =
        (r, { re with children_ids := entryKeys rest }) :: rest := by
      rw [entriesErase_cons, if_neg hrck, entriesErase_cons, if_pos rfl,
        entriesErase_of_not_mem _ _ hckrest]
    rw [herase]
    have hnd2 : (entryKeys ((r, { re with children_ids := entryKeys rest }) :: rest)).Nodup := by
      have h1 : entryKeys ((r, { re with children_ids := entryKeys rest }) :: rest)
          = r :: entryKeys rest := by simp [entryKeys]
      rw [h1]
      refine List.nodup_cons.2 ⟨fun hc => h3.1 (List.mem_cons_of_mem ck hc), h4.2⟩
    exact ih { re with children_ids := entryKeys rest } rfl
      (fun kv hkv => hrest kv (List.mem_cons_of_mem _ hkv)) hnd2

/-- Counterexample to claim C2 as stated: deleting the root of the
concrete chain a1 -> b1 -> c1 returns true, yet the node map is NOT
left empty (the grandchild c1 survives with a dangling parent pointer
at the deleted root) and `original_entry_id` is NOT cleared (it still
holds the stale root id a1 — the code never touches it). -/
theorem root_cascade_counterexample :
    delete_reflection_by_id 9 chainManager "a1" =
      .ok (true, ReflectionManager.mk (some "a1")
        [("c1", { entryC with parent_id := some "a1" })]) ∧
    ([("c1", { entryC with parent_id := some "a1" })] : Entries) ≠ [] ∧
    (some "a1" : Option String) ≠ none := by
  refine ⟨?_, by decide, by decide⟩
  simp [delete_reflection_by_id, deleteChildrenLoop, chainManager, entryA, entryB, entryC,
    entriesLookup, entriesUpdate, entriesErase, getChildrenLoop, reparentLoop,
    listRemoveFirst, List.find?]

/-- Claim C2 (amended): deleting the root of a depth-at-most-one tree
(a root whose children are all childless) returns true and leaves the
node map empty, but `original_entry_id` is left unchanged (stale)
rather than cleared; for deeper trees the cascade is incomplete —
grandchildren reparented mid-cascade survive with dangling parent
references (see the counterexample). -/
theorem delete_root_depth_one
    (orig : Option String) (r : String) (re : ReflectionEntry) (rest : Entries) (f : Nat)
    (hr_ne : r ≠ "")
    (hpar : re.parent_id = none)
    (hch : re.children_ids = entryKeys rest)
    (hrest : ∀ kv ∈ rest, kv.2.id = kv.1 ∧ kv.2.parent_id = some r ∧ kv.2.children_ids = [])
    (hnd : (entryKeys ((r, re) :: rest)).Nodup) :
    delete_reflection_by_id (f+2) (ReflectionManager.mk orig ((r, re) :: rest)) r =
      .ok (true, ReflectionManager.mk orig []) := by
  have hkeys : entryKeys ((r, re) :: rest) = r :: entryKeys rest := by simp [entryKeys]
  have hnd' : (r :: entryKeys rest).Nodup := by rw [hkeys] at hnd; exact hnd
  have hrk : r ∉ entryKeys rest := (List.nodup_cons.1 hnd').1
  have hndrest : (entryKeys rest).Nodup := (List.nodup_cons.1 hnd').2
  have hlookr : entriesLookup ((r, re) :: rest) r = some re := by
    rw [entriesLookup_cons, if_pos rfl]
  have hchildren : getChildrenLoop ((r, re) :: rest) re.children_ids =
      .ok (rest.map (·.2)) := by
    rw [hch, getChildrenLoop_ok]
    · have : (entryKeys rest).map (lookupD ((r, re) :: rest)) = rest.map (·.2) := by
        unfold entryKeys
        rw [List.map_map]
        apply List.map_congr_left
        intro kv hkv
        have hne : ¬ r = kv.1 := fun h => hrk (h ▸ List.mem_map_of_mem (·.1) hkv)
        have : entriesLookup ((r, re) :: rest) kv.1 = some kv.2 := by
          rw [entriesLookup_cons, if_neg hne]
          exact entriesLookup_of_mem rest kv.1 kv.2 hndrest (by simpa using hkv)
        simp [lookupD, this]
      rw [this]
    · intro c hc
      rw [hkeys]
      exact List.mem_cons_of_mem r hc
  have hloop := deleteRootChildrenLoop_eq orig r f hr_ne rest re hch hrest hnd
  unfold delete_reflection_by_id
  rw [hlookr]
  simp only [hpar]
  rw [hchildren]
  have hfinal : entriesLookup [(r, { re with children_ids := ([] : List String) })] r =
      some { re with children_ids := ([] : List String) } := by
    rw [entriesLookup_cons, if_pos rfl]
  simp [hloop, hfinal, entriesErase]

/-- Witness for the amended C2 theorem: the depth-one tree r1 -> s1;
deleting r1 empties the map and keeps the stale root id. -/
theorem delete_root_depth_one_witness :
    flatRoot.parent_id = none ∧
    flatRoot.children_ids = entryKeys [("s1", flatChild)] ∧
    (∀ kv ∈ [("s1", flatChild)],
      kv.2.id = kv.1 ∧ kv.2.parent_id = some "r1" ∧ kv.2.children_ids = []) ∧
    delete_reflection_by_id (0+2)
      (ReflectionManager.mk (some "r1") [("r1", flatRoot), ("s1", flatChild)]) "r1" =
      .ok (true, ReflectionManager.mk (some "r1") []) :=
  ⟨by decide, by decide, by decide,
    delete_root_depth_one (some "r1") "r1" flatRoot [("s1", flatChild)] 0
      (by decide) (by decide) (by decide) (by decide) (by decide)⟩

theorem mem_entriesUpdate (es : Entries) (k : String)
    (f : ReflectionEntry → ReflectionEntry) (kv : String × ReflectionEntry)
    (h : kv ∈ entriesUpdate es k f) :
    ∃ ab, ab ∈ es ∧ kv.1 = ab.1 ∧ kv.2 = (if ab.1 = k then f ab.2 else ab.2) := by
  unfold entriesUpdate at h
  obtain ⟨ab, hab, habe⟩ := List.mem_map.1 h
  subst habe
  refine ⟨ab, hab, ?_, ?_⟩ <;> by_cases hk : ab.1 = k <;> simp [hk]

theorem newChildEntries_fields (fresh : Nat → String) (pid : String) (lang : Languages) :
    ∀ (i : Nat) (bs : List Belief) (kv : String × ReflectionEntry),
      kv ∈ newChildEntries fresh pid lang i bs →
      (∃ j, j < bs.length ∧ kv.1 = fresh (i + j)) ∧ kv.2.id = kv.1 ∧
      kv.2.parent_id = some pid ∧ kv.2.children_ids = [] := by
  intro i bs
  induction bs generalizing i with
  | nil => intro kv h; simp [newChildEntries] at h
  | cons b bs ih =>
    intro kv h
    rw [newChildEntries] at h
    rcases List.mem_cons.1 h with h1 | h1
    · subst h1
      exact ⟨⟨0, Nat.succ_pos bs.length, by rw [Nat.add_zero]⟩, rfl, rfl, rfl⟩
    · obtain ⟨⟨j, hj, hkey⟩, hid, hpar, hch⟩ := ih (i+1) kv h1
      refine ⟨⟨j+1, by simpa using Nat.succ_lt_succ hj, ?_⟩, hid, hpar, hch⟩
      rw [hkey]
      congr 1
      omega

theorem fresh_mem_newChildIds (fresh : Nat → String) :
    ∀ (i : Nat) (bs : List Belief) (j : Nat), j < bs.length →
      fresh (i + j) ∈ newChildIds fresh i bs := by
  intro i bs
  induction bs generalizing i with
  | nil => intro j hj; exact absurd hj (by simp)
  | cons b bs ih =>
    intro j hj
    rw [newChildIds]
    cases j with
    | zero => exact List.mem_cons_self _ _
    | succ jj =>
      have : i + (jj + 1) = (i + 1) + jj := by omega
      rw [this]
      exact List.mem_cons_of_mem _ (ih (i+1) jj (by simpa [Nat.succ_lt_succ_iff] using hj))

theorem analyze_final_consistent
    (orig : Option String) (fresh : Nat → String) (es : Entries) (rid : String)
    (e : ReflectionEntry) (ths : List String) (snt : Sentiment) (lang : Languages)
    (bs : List Belief)
    (hnd : (entryKeys es).Nodup)
    (hids : idsMatchB es = true)
    (hcons : treeConsistentB (ReflectionManager.mk orig es) = true)
    (he : entriesLookup es rid = some e)
    (habs : ∀ j, fresh j ∉ entryKeys es) :
    treeConsistentB (ReflectionManager.mk orig
      (entriesUpdate es rid
        (fun x => { x with
                    themes := ths,
                    sentiment := snt,
                    children_ids := x.children_ids ++ newChildIds fresh 0 bs })
        ++ newChildEntries fresh e.id lang 0 bs)) = true := by
  have hidsP := (idsMatchB_iff es).1 hids
  have hmemE : (rid, e) ∈ es := mem_of_entriesLookup _ _ _ he
  have heid : e.id = rid := hidsP (rid, e) hmemE
  have hridk : rid ∈ entryKeys es := List.mem_map_of_mem (·.1) hmemE
  obtain ⟨hndO, hbdO⟩ := (treeConsistentB_iff (ReflectionManager.mk orig es)).1 hcons
  have hkeysF : entryKeys
      (entriesUpdate es rid
        (fun x => { x with
                    themes := ths,
                    sentiment := snt,
                    children_ids := x.children_ids ++ newChildIds fresh 0 bs })
        ++ newChildEntries fresh e.id lang 0 bs)
      = entryKeys es ++ newChildIds fresh 0 bs := by
    rw [entryKeys_append, entryKeys_update, newChildEntries_keys]
  apply (treeConsistentB_iff _).2
  constructor
  · intro kv hkv
    rcases List.mem_append.1 hkv with hU | hN
    · obtain ⟨ab, habm, hk1, hk2⟩ := mem_entriesUpdate es rid _ kv hU
      have hpar_eq : kv.2.parent_id = ab.2.parent_id := by
        rw [hk2]; by_cases hr : ab.1 = rid <;> simp [hr]
      constructor
      · intro p hp
        rw [hpar_eq] at hp
        rw [hkeysF]
        exact List.mem_append.2 (Or.inl ((hndO ab habm).1 p hp))
      · intro c hc
        rw [hkeysF]
        by_cases hr : ab.1 = rid
        · have hch_eq : kv.2.children_ids =
              ab.2.children_ids ++ newChildIds fresh 0 bs := by
            rw [hk2, if_pos hr]
          rw [hch_eq] at hc
          rcases List.mem_append.1 hc with h1 | h1
          · exact List.mem_append.2 (Or.inl ((hndO ab habm).2 c h1))
          · exact List.mem_append.2 (Or.inr h1)
        · have hch_eq : kv.2.children_ids = ab.2.children_ids := by
            rw [hk2, if_neg hr]
          rw [hch_eq] at hc
          exact List.mem_append.2 (Or.inl ((hndO ab habm).2 c hc))
    · obtain ⟨⟨j, hj, hkey⟩, hid, hpar, hch⟩ :=
        newChildEntries_fields fresh e.id lang 0 bs kv hN
      constructor
      · intro p hp
        rw [hpar] at hp
        have hpe : p = e.id := by
          have := hp
          simp only [Option.mem_def, Option.some_inj] at this
          exact this.symm
        rw [hkeysF, hpe, heid]
        exact List.mem_append.2 (Or.inl hridk)
      · intro c hc
        rw [hch] at hc
        exact absurd hc (List.not_mem_nil c)
  · intro c hcm p hpm
    rcases List.mem_append.1 hcm with hcU | hcN <;>
      rcases List.mem_append.1 hpm with hpU | hpN
    · obtain ⟨ab, habm, hck1, hck2⟩ := mem_entriesUpdate es rid _ c hcU
      obtain ⟨cd, hcdm, hpk1, hpk2⟩ := mem_entriesUpdate es rid _ p hpU
      have hcpar : c.2.parent_id = ab.2.parent_id := by
        rw [hck2]; by_cases hr : ab.1 = rid <;> simp [hr]
      have hcid : c.2.id = ab.2.id := by
        rw [hck2]; by_cases hr : ab.1 = rid <;> simp [hr]
      have hpid2 : p.2.id = cd.2.id := by
        rw [hpk2]; by_cases hr : cd.1 = rid <;> simp [hr]
      have horig := hbdO ab habm cd hcdm
      by_cases hl : cd.1 = rid
      · have hpch : p.2.children_ids = cd.2.children_ids ++ newChildIds fresh 0 bs := by
          rw [hpk2, if_pos hl]
        rw [hcpar, hcid, hpid2, hpch]
        constructor
        · intro hpp
          exact List.mem_append.2 (Or.inl (horig.1 hpp))
        · intro hcc
          rcases List.mem_append.1 hcc with h1 | h1
          · exact horig.2 h1
          · obtain ⟨jj, hjj, hjeq⟩ := mem_newChildIds fresh 0 bs ab.2.id h1
            have habk : ab.2.id ∈ entryKeys es := by
              rw [hidsP ab habm]
              exact List.mem_map_of_mem (·.1) habm
            rw [hjeq] at habk
            exact absurd habk (habs (0 + jj))
      · have hpch : p.2.children_ids = cd.2.children_ids := by
          rw [hpk2, if_neg hl]
        rw [hcpar, hcid, hpid2, hpch]
        exact horig
    · obtain ⟨ab, habm, hck1, hck2⟩ := mem_entriesUpdate es rid _ c hcU
      obtain ⟨⟨j, hj, hkey⟩, hid, hpar, hch⟩ :=
        newChildEntries_fields fresh e.id lang 0 bs p hpN
      have hcpar : c.2.parent_id = ab.2.parent_id := by
        rw [hck2]; by_cases hr : ab.1 = rid <;> simp [hr]
      refine iff_of_false ?_ ?_
      · intro hpp
        rw [hcpar] at hpp
        have hmemk := (hndO ab habm).1 p.2.id (by simp [hpp])
        rw [hid, hkey] at hmemk
        exact absurd hmemk (habs (0 + j))
      · intro hcc
        rw [hch] at hcc
        exact absurd hcc (List.not_mem_nil _)
    · obtain ⟨⟨j, hj, hkey⟩, hid, hpar, hch⟩ :=
        newChildEntries_fields fresh e.id lang 0 bs c hcN
      obtain ⟨cd, hcdm, hpk1, hpk2⟩ := mem_entriesUpdate es rid _ p hpU
      have hpid2 : p.2.id = cd.2.id := by
        rw [hpk2]; by_cases hr : cd.1 = rid <;> simp [hr]
      by_cases hl : cd.1 = rid
      · have hcd2 : cd.2 = e := by
          have h1 := entriesLookup_of_mem es cd.1 cd.2 hnd hcdm
          rw [hl, he] at h1
          exact (Option.some_injective _ h1).symm
        have hpch : p.2.children_ids = cd.2.children_ids ++ newChildIds fresh 0 bs := by
          rw [hpk2, if_pos hl]
        refine iff_of_true ?_ ?_
        · rw [hpar, hpid2, hcd2]
        · rw [hid, hkey, hpch, hcd2]
          exact List.mem_append.2 (Or.inr (fresh_mem_newChildIds fresh 0 bs j hj))
      · have hpch : p.2.children_ids = cd.2.children_ids := by
          rw [hpk2, if_neg hl]
        refine iff_of_false ?_ ?_
        · intro hpp
          rw [hpar, hpid2] at hpp
          have h1 : e.id = cd.2.id := Option.some_injective _ hpp
          rw [heid, hidsP cd hcdm] at h1
          exact hl h1.symm
        · intro hcc
          rw [hid, hkey, hpch] at hcc
          have hmemk := (hndO cd hcdm).2 _ hcc
          exact absurd hmemk (habs (0 + j))
    · obtain ⟨⟨j, hj, hkey⟩, hid, hpar, hch⟩ :=
        newChildEntries_fields fresh e.id lang 0 bs c hcN
      obtain ⟨⟨j2, hj2, hkey2⟩, hid2, hpar2, hch2⟩ :=
        newChildEntries_fields fresh e.id lang 0 bs p hpN
      refine iff_of_false ?_ ?_
      · intro hpp
        rw [hpar] at hpp
        have h1 : e.id = p.2.id := Option.some_injective _ hpp
        rw [heid, hid2, hkey2] at h1
        exact absurd (h1 ▸ hridk) (habs (0 + j2))
      · intro hcc
        rw [hch2] at hcc
        exact absurd hcc (List.not_mem_nil _)

theorem mem_listRemoveFirst_of_ne (l : List String) (x y : String)
    (hx : x ∈ l) (hne : x ≠ y) : x ∈ listRemoveFirst l y := by
  induction l with
  | nil => simp at hx
  | cons a l ih =>
    by_cases hay : a = y
    · rw [listRemoveFirst, if_pos hay]
      rcases List.mem_cons.1 hx with h1 | h1
      · exact absurd (h1.trans hay) hne
      · exact h1
    · rw [listRemoveFirst, if_neg hay]
      rcases List.mem_cons.1 hx with h1 | h1
      · exact h1 ▸ List.mem_cons_self a _
      · exact List.mem_cons_of_mem a (ih h1)

theorem delete_final_consistent
    (m : ReflectionManager) (rid pid : String) (e pe : ReflectionEntry)
    (hwf : WF m)
    (he : entriesLookup m.reflection_entries rid = some e)
    (hpar : e.parent_id = some pid)
    (hpe : entriesLookup m.reflection_entries pid = some pe) :
    treeConsistentB (ReflectionManager.mk m.original_entry_id
      (entriesErase
        (reparentLoop pe.id pid
          (entriesUpdate m.reflection_entries pid
            (fun x => { x with children_ids := listRemoveFirst x.children_ids rid }))
          (e.children_ids.map (lookupD m.reflection_entries)))
        rid)) = true := by
  obtain ⟨hpne, hmem, hrp, hpc, hrc, hcpres, hcnodup, hcid, heid, hpeid⟩ :=
    wf_nonroot_facts m rid pid e pe hwf he hpar hpe
  have hidsP := (idsMatchB_iff m.reflection_entries).1 hwf.idsMatch
  have hmemE : (rid, e) ∈ m.reflection_entries := mem_of_entriesLookup _ _ _ he
  have hmemP : (pid, pe) ∈ m.reflection_entries := mem_of_entriesLookup _ _ _ hpe
  obtain ⟨hndO, hbdO⟩ := (treeConsistentB_iff m).1 hwf.consistent
  obtain ⟨rank, hrank⟩ := hwf.acyclic
  have hpenodup : pe.children_ids.Nodup := hwf.childNodup (pid, pe) hmemP
  have hppe : pid ∉ pe.children_ids := by
    intro hin
    have h1 : pe.parent_id = some pe.id :=
      (hbdO (pid, pe) hmemP (pid, pe) hmemP).2 (hpeid ▸ hin)
    have h2 := (rankOkB_iff rank (pid, pe)).1 (hrank _ hmemP) pe.id (by simp [h1])
    rw [hpeid] at h2
    exact absurd h2 (lt_irrefl _)
  have hpe_ne_rid : pe.parent_id ≠ some rid := by
    intro hco
    have h1 := (hbdO (pid, pe) hmemP (rid, e) hmemE).1 (by rw [hco, heid])
    rw [hpeid] at h1
    exact hpc h1
  have hchild_par : ∀ cid v, cid ∈ e.children_ids →
      entriesLookup m.reflection_entries cid = some v → v.parent_id = some rid := by
    intro cid v hcin hv
    have hvm := mem_of_entriesLookup _ _ _ hv
    have hvid : v.id = cid := hidsP (cid, v) hvm
    have h1 := (hbdO (cid, v) hvm (rid, e) hmemE).2 (by rw [hvid]; exact hcin)
    rw [heid] at h1
    exact h1
  have hnot_par_rid : ∀ kv ∈ m.reflection_entries, kv.1 ∉ e.children_ids →
      kv.2.parent_id ≠ some rid := by
    intro kv hkvm hkc hco
    have h1 := (hbdO kv hkvm (rid, e) hmemE).1 (by rw [hco, heid])
    rw [hidsP kv hkvm] at h1
    exact hkc h1
  have hrid_not_child : ∀ kv ∈ m.reflection_entries, kv.1 ≠ pid →
      rid ∉ kv.2.children_ids := by
    intro kv hkvm hkp hco
    have h1 := (hbdO (rid, e) hmemE kv hkvm).2 (heid ▸ hco)
    rw [hpar] at h1
    have h2 : pid = kv.2.id := Option.some_injective _ h1
    rw [hidsP kv hkvm] at h2
    exact hkp h2.symm
  have hfl := delete_nonroot_final_lookup m rid pid e pe hpe hrp hpc hrc hcnodup hcid
  have hkeys := delete_nonroot_final_keys m rid pid e pe
  have hndF : (entryKeys
      (entriesErase
        (reparentLoop pe.id pid
          (entriesUpdate m.reflection_entries pid
            (fun x => { x with children_ids := listRemoveFirst x.children_ids rid }))
          (e.children_ids.map (lookupD m.reflection_entries)))
        rid)).Nodup := by
    rw [hkeys]
    exact hwf.keysNodup.filter _
  have hclass : ∀ kv ∈
      entriesErase
        (reparentLoop pe.id pid
          (entriesUpdate m.reflection_entries pid
            (fun x => { x with children_ids := listRemoveFirst x.children_ids rid }))
          (e.children_ids.map (lookupD m.reflection_entries)))
        rid,
      kv.1 ≠ rid ∧
      ((kv.1 = pid ∧ kv.2 =
          { pe with children_ids := listRemoveFirst pe.children_ids rid ++ e.children_ids }) ∨
       (kv.1 ∈ e.children_ids ∧ ∃ v, entriesLookup m.reflection_entries kv.1 = some v ∧
          kv.2 = { v with parent_id := some pe.id }) ∨
       (kv.1 ≠ pid ∧ kv.1 ∉ e.children_ids ∧ (kv.1, kv.2) ∈ m.reflection_entries)) := by
    intro kv hkv
    have hlk := entriesLookup_of_mem _ _ _ hndF hkv
    rw [hfl kv.1] at hlk
    by_cases h1 : kv.1 = rid
    · rw [if_pos h1] at hlk
      exact absurd hlk (by simp)
    rw [if_neg h1] at hlk
    refine ⟨h1, ?_⟩
    by_cases h2 : kv.1 = pid
    · rw [if_pos h2] at hlk
      exact Or.inl ⟨h2, (Option.some_injective _ hlk).symm⟩
    rw [if_neg h2] at hlk
    by_cases h3 : kv.1 ∈ e.children_ids
    · rw [if_pos h3] at hlk
      cases hv : entriesLookup m.reflection_entries kv.1 with
      | none => rw [hv] at hlk; exact absurd hlk (by simp)
      | some v =>
        rw [hv] at hlk
        have hkv2 : kv.2 = { v with parent_id := some pe.id } := by
          have h9 : some ({ v with parent_id := some pe.id } : ReflectionEntry) = some kv.2 :=
            hlk
          exact (Option.some_injective _ h9).symm
        exact Or.inr (Or.inl ⟨h3, v, rfl, hkv2⟩)
    · rw [if_neg h3] at hlk
      exact Or.inr (Or.inr ⟨h2, h3, mem_of_entriesLookup _ _ _ hlk⟩)
  apply (treeConsistentB_iff _).2
  have hkeysF : ∀ x, x ∈ entryKeys m.reflection_entries → x ≠ rid →
      x ∈ entryKeys
        (entriesErase
          (reparentLoop pe.id pid
            (entriesUpdate m.reflection_entries pid
              (fun x => { x with children_ids := listRemoveFirst x.children_ids rid }))
            (e.children_ids.map (lookupD m.reflection_entries)))
          rid) := by
    intro x hx hne
    rw [hkeys]
    exact List.mem_filter.2 ⟨hx, by simpa using hne⟩
  constructor
  · intro kv hkv
    obtain ⟨hnr, hcl⟩ := hclass kv hkv
    rcases hcl with ⟨hk, hv⟩ | ⟨hk, v, hlv, hv⟩ | ⟨hk1, hk2, hkm⟩
    · constructor
      · intro q hq
        rw [hv] at hq
        have hq2 : q ∈ pe.parent_id := hq
        have hqk := (hndO (pid, pe) hmemP).1 q hq2
        have hqr : q ≠ rid := by
          intro hqr
          apply hpe_ne_rid
          subst hqr
          simpa using hq2
        exact hkeysF q hqk hqr
      · intro c hc
        rw [hv] at hc
        simp only [] at hc
        rcases List.mem_append.1 hc with h4 | h4
        · have hcin : c ∈ pe.children_ids := mem_listRemoveFirst _ _ _ h4
          have hcr : c ≠ rid := by
            intro hcr
            subst hcr
            exact listRemoveFirst_self_not_mem _ _ hpenodup h4
          exact hkeysF c ((hndO (pid, pe) hmemP).2 c hcin) hcr
        · have hcr : c ≠ rid := fun hcr => hrc (hcr ▸ h4)
          exact hkeysF c (hcpres c h4) hcr
    · have hvm := mem_of_entriesLookup _ _ _ hlv
      constructor
      · intro q hq
        rw [hv] at hq
        have hq2 : q = pe.id := by
          simp only [Option.mem_def, Option.some_inj] at hq
          exact hq.symm
        have h5 : q ∈ entryKeys m.reflection_entries := by
          rw [hq2, hpeid]
          exact List.mem_map_of_mem (·.1) hmemP
        have h6 : q ≠ rid := by
          rw [hq2, hpeid]
          exact fun h => hrp h.symm
        exact hkeysF q h5 h6
      · intro c hc
        rw [hv] at hc
        simp only [] at hc
        have hcr : c ≠ rid := by
          intro hcr
          subst hcr
          exact hrid_not_child (kv.1, v) hvm (fun h => hpc (h ▸ hk)) hc
        exact hkeysF c ((hndO (kv.1, v) hvm).2 c hc) hcr
    · constructor
      · intro q hq
        have hqk := (hndO kv hkm).1 q hq
        have hqr : q ≠ rid := by
          intro hqr
          apply hnot_par_rid kv hkm hk2
          subst hqr
          simpa using hq
        exact hkeysF q hqk hqr
      · intro c hc
        have hcr : c ≠ rid := by
          intro hcr
          subst hcr
          exact hrid_not_child kv hkm hk1 hc
        exact hkeysF c ((hndO kv hkm).2 c hc) hcr
  · intro c hcm p hpm
    obtain ⟨hcnr, hccl⟩ := hclass c hcm
    obtain ⟨hpnr, hpcl⟩ := hclass p hpm
    rcases hccl with ⟨hck, hcv⟩ | ⟨hck, v, hclv, hcv⟩ | ⟨hck1, hck2, hckm⟩ <;>
      rcases hpcl with ⟨hpk, hpv⟩ | ⟨hpk, w, hplv, hpv⟩ | ⟨hpk1, hpk2, hpkm⟩
    · rw [hcv, hpv]
      refine iff_of_false ?_ ?_
      · intro hco
        simp only [] at hco
        have h1 : pe.parent_id = some pid := by rw [hco, hpeid]
        have h2 := (rankOkB_iff rank (pid, pe)).1 (hrank _ hmemP) pid (by simp [h1])
        exact absurd h2 (lt_irrefl _)
      · intro hco
        simp only [] at hco
        rw [hpeid] at hco
        rcases List.mem_append.1 hco with h4 | h4
        · exact hppe (mem_listRemoveFirst _ _ _ h4)
        · exact hpc h4
    · have hwm := mem_of_entriesLookup _ _ _ hplv
      rw [hcv, hpv]
      have horig := hbdO (pid, pe) hmemP (p.1, w) hwm
      exact horig
    · rw [hcv]
      have horig := hbdO (pid, pe) hmemP p hpkm
      exact horig
    · rw [hcv, hpv]
      have hvm := mem_of_entriesLookup _ _ _ hclv
      refine iff_of_true ?_ ?_
      · rfl
      · have hvid : v.id = c.1 := hidsP (c.1, v) hvm
        show v.id ∈ listRemoveFirst pe.children_ids rid ++ e.children_ids
        rw [hvid]
        exact List.mem_append.2 (Or.inr hck)
    · rw [hcv, hpv]
      have hvm := mem_of_entriesLookup _ _ _ hclv
      have hwm := mem_of_entriesLookup _ _ _ hplv
      refine iff_of_false ?_ ?_
      · intro hco
        simp only [] at hco
        have h1 : pe.id = w.id := Option.some_injective _ hco
        rw [hpeid, hidsP (p.1, w) hwm] at h1
        exact hpc (h1 ▸ hpk)
      · intro hco
        simp only [] at hco
        have h1 := (hbdO (c.1, v) hvm (p.1, w) hwm).2 hco
        have h2 := hchild_par c.1 v hck hclv
        rw [h2] at h1
        have h3 : rid = w.id := Option.some_injective _ h1
        rw [hidsP (p.1, w) hwm] at h3
        exact hpnr h3.symm
    · rw [hcv]
      have hvm := mem_of_entriesLookup _ _ _ hclv
      refine iff_of_false ?_ ?_
      · intro hco
        simp only [] at hco
        have h1 : pe.id = p.2.id := Option.some_injective _ hco
        rw [hpeid, hidsP p hpkm] at h1
        exact hpk1 h1.symm
      · intro hco
        simp only [] at hco
        have h1 := (hbdO (c.1, v) hvm p hpkm).2 hco
        have h2 := hchild_par c.1 v hck hclv
        rw [h2] at h1
        have h3 : rid = p.2.id := Option.some_injective _ h1
        rw [hidsP p hpkm] at h3
        exact hpnr h3.symm
    · rw [hpv]
      have horigiff := hbdO c hckm (pid, pe) hmemP
      simp only [] at horigiff ⊢
      rw [hpeid]
      constructor
      · intro hco
        have h1 := horigiff.1 (by rw [hco, hpeid])
        have hcr : c.2.id ≠ rid := by
          rw [hidsP c hckm]
          exact hcnr
        exact List.mem_append.2 (Or.inl (mem_listRemoveFirst_of_ne _ _ _ h1 hcr))
      · intro hco
        rcases List.mem_append.1 hco with h4 | h4
        · have h5 := horigiff.2 (mem_listRemoveFirst _ _ _ h4)
          rw [h5, hpeid]
        · rw [hidsP c hckm] at h4
          exact absurd h4 hck2
    · rw [hpv]
      have hwm := mem_of_entriesLookup _ _ _ hplv
      have horig := hbdO c hckm (p.1, w) hwm
      simp only [] at horig ⊢
      exact horig
    · exact hbdO c hckm p hpkm

/-- Counterexample to claim C1 as stated: the empty manager is
consistent, yet one completed `upsert_reflection` of an entry whose
parent pointer names no stored node leaves the map inconsistent —
upsert does not fix up linkage, so consistency does not hold after
every completed upsert. -/
theorem consistency_counterexample :
    treeConsistentB emptyManager = true ∧
    treeConsistentB (upsert_reflection emptyManager danglingEntry).2 = false := by
  constructor <;> decide

theorem analyzeEq_absent
    (client : String → String → Languages → Option ReflectionAnalysis)
    (fresh : Nat → String) (m : ReflectionManager) (rid : String)
    (h : entriesLookup m.reflection_entries rid = none) :
    analyze_reflection_by_id client fresh m rid = (false, m) := by
  unfold analyze_reflection_by_id
  rw [h]

theorem analyzeEq_noanswer
    (client : String → String → Languages → Option ReflectionAnalysis)
    (fresh : Nat → String) (m : ReflectionManager) (rid : String) (e : ReflectionEntry)
    (he : entriesLookup m.reflection_entries rid = some e)
    (hans : optTruthy e.answer = false) :
    analyze_reflection_by_id client fresh m rid = (false, m) := by
  unfold analyze_reflection_by_id
  rw [he]
  simp [hans]

theorem analyzeEq_skip
    (client : String → String → Languages → Option ReflectionAnalysis)
    (fresh : Nat → String) (m : ReflectionManager) (rid : String) (e : ReflectionEntry)
    (he : entriesLookup m.reflection_entries rid = some e)
    (hans : optTruthy e.answer = true) (hth : e.themes ≠ []) :
    analyze_reflection_by_id client fresh m rid = (true, m) := by
  have hs : (sentimentStr e.sentiment != "") = true := sentimentStr_ne_empty e.sentiment
  have ht : e.themes.isEmpty = false := by
    cases h : e.themes with
    | nil => exact absurd h hth
    | cons a l => rfl
  unfold analyze_reflection_by_id
  rw [he]
  simp [hans, ht, hs]

theorem analyzeEq_clientfail
    (client : String → String → Languages → Option ReflectionAnalysis)
    (fresh : Nat → String) (m : ReflectionManager) (rid : String) (e : ReflectionEntry)
    (he : entriesLookup m.reflection_entries rid = some e)
    (hans : optTruthy e.answer = true) (hth : e.themes = [])
    (hcl : client e.question (e.answer.getD "") e.language = none) :
    analyze_reflection_by_id client fresh m rid = (false, m) := by
  have ht : e.themes.isEmpty = true := by rw [hth]; rfl
  unfold analyze_reflection_by_id
  rw [he]
  simp [hans, ht, hcl]

/-- Claim C1 (amended): bidirectional consistency (with no dangling
references) is preserved by analysis and by non-root deletion on
well-formed states, and by upsert of a fresh unlinked root; general
upsert (and root deletion, see the C2 counterexample) can break it. -/
theorem tree_consistency_per_operation :
    (∀ m e, treeConsistentB m = true → e.parent_id = none → e.children_ids = [] →
      e.id ∉ entryKeys m.reflection_entries →
      treeConsistentB (upsert_reflection m e).2 = true) ∧
    (∀ f m rid pid e pe b m', WF m →
      get_reflection_by_id m rid = some e → e.parent_id = some pid →
      get_reflection_by_id m pid = some pe →
      delete_reflection_by_id (f+1) m rid = .ok (b, m') →
      treeConsistentB m' = true) ∧
    (∀ client fresh m rid b m', WF m →
      optTruthy m.original_entry_id = true →
      (∀ j, fresh j ∉ entryKeys m.reflection_entries) →
      (∀ j k, j ≠ k → fresh j ≠ fresh k) →
      analyze_reflection_by_id client fresh m rid = (b, m') →
      treeConsistentB m' = true) := by
  refine ⟨?_, ?_, ?_⟩
  · intro m e hcons hpar hch hnew
    obtain ⟨hndO, hbdO⟩ := (treeConsistentB_iff m).1 hcons
    have hins : (upsert_reflection m e).2.reflection_entries =
        m.reflection_entries ++ [(e.id, e)] := by
      unfold upsert_reflection
      simp only []
      rw [entriesInsert_of_not_mem _ _ _ hnew]
    apply (treeConsistentB_iff _).2
    rw [hins]
    have hkeys2 : entryKeys (m.reflection_entries ++ [(e.id, e)])
        = entryKeys m.reflection_entries ++ [e.id] := by
      rw [entryKeys_append]
      rfl
    constructor
    · intro kv hkv
      rcases List.mem_append.1 hkv with h1 | h1
      · constructor
        · intro q hq
          rw [hkeys2]
          exact List.mem_append.2 (Or.inl ((hndO kv h1).1 q hq))
        · intro c hc
          rw [hkeys2]
          exact List.mem_append.2 (Or.inl ((hndO kv h1).2 c hc))
      · have hkv2 : kv = (e.id, e) := List.mem_singleton.1 h1
        subst hkv2
        constructor
        · intro q hq
          rw [hpar] at hq
          exact absurd hq (by simp)
        · intro c hc
          rw [hch] at hc
          exact absurd hc (List.not_mem_nil c)
    · intro c hcm p hpm
      rcases List.mem_append.1 hcm with hc1 | hc1 <;>
        rcases List.mem_append.1 hpm with hp1 | hp1
      · exact hbdO c hc1 p hp1
      · have hp2 : p = (e.id, e) := List.mem_singleton.1 hp1
        subst hp2
        refine iff_of_false ?_ ?_
        · intro hco
          have hq := (hndO c hc1).1 e.id (by simp [hco])
          exact hnew hq
        · intro hco
          rw [hch] at hco
          exact absurd hco (List.not_mem_nil _)
      · have hc2 : c = (e.id, e) := List.mem_singleton.1 hc1
        subst hc2
        refine iff_of_false ?_ ?_
        · intro hco
          rw [hpar] at hco
          exact absurd hco (by simp)
        · intro hco
          exact hnew ((hndO p hp1).2 e.id hco)
      · have hc2 : c = (e.id, e) := List.mem_singleton.1 hc1
        have hp2 : p = (e.id, e) := List.mem_singleton.1 hp1
        subst hc2
        subst hp2
        refine iff_of_false ?_ ?_
        · intro hco
          rw [hpar] at hco
          exact absurd hco (by simp)
        · intro hco
          rw [hch] at hco
          exact absurd hco (List.not_mem_nil _)
  · intro f m rid pid e pe b m' hwf he hpar hpe heq
    obtain ⟨hpne, hmem, hrp, hpc, hrc, hcpres, hcnodup, hcid, heid, hpeid⟩ :=
      wf_nonroot_facts m rid pid e pe hwf he hpar hpe
    rw [get_reflection_by_id] at he hpe
    rw [delete_nonroot_eq m rid pid e pe f he hpar hpne hpe hmem hrp hpc hrc
      hcpres hcnodup hcid] at heq
    have hm' : m' = ReflectionManager.mk m.original_entry_id
        (entriesErase
          (reparentLoop pe.id pid
            (entriesUpdate m.reflection_entries pid
              (fun x => { x with children_ids := listRemoveFirst x.children_ids rid }))
            (e.children_ids.map (lookupD m.reflection_entries)))
          rid) := by
      cases heq
      rfl
    rw [hm']
    exact delete_final_consistent m rid pid e pe hwf he hpar hpe
  · intro client fresh m rid b m' hwf horig habs hinj heq
    cases hlook : entriesLookup m.reflection_entries rid with
    | none =>
      rw [analyzeEq_absent client fresh m rid hlook] at heq
      cases heq
      exact hwf.consistent
    | some refl =>
      cases hans : optTruthy refl.answer with
      | false =>
        rw [analyzeEq_noanswer client fresh m rid refl hlook hans] at heq
        cases heq
        exact hwf.consistent
      | true =>
        cases hth : refl.themes.isEmpty with
        | false =>
          have hthne : refl.themes ≠ [] := by
            intro h
            rw [h] at hth
            exact absurd hth (by simp)
          rw [analyzeEq_skip client fresh m rid refl hlook hans hthne] at heq
          cases heq
          exact hwf.consistent
        | true =>
          have hthe : refl.themes = [] := by
            cases h : refl.themes with
            | nil => rfl
            | cons a l =>
              rw [h] at hth
              exact absurd hth (by simp)
          cases hcl : client refl.question (refl.answer.getD "") refl.language with
          | none =>
            rw [analyzeEq_clientfail client fresh m rid refl hlook hans hthe hcl] at heq
            cases heq
            exact hwf.consistent
          | some analysis =>
            have hdist : ∀ j k, j < k → k < analysis.beliefs.length →
                fresh j ≠ fresh k := fun j k hjk _ => hinj j k (Nat.ne_of_lt hjk)
            have habs2 : ∀ j, j < analysis.beliefs.length →
                fresh j ∉ entryKeys m.reflection_entries := fun j _ => habs j
            have heq2 := analyze_success_eq client fresh m rid refl analysis
              (by rw [get_reflection_by_id]; exact hlook) hans hthe hcl horig habs2 hdist
            rw [heq2] at heq
            have hm' : m' = ReflectionManager.mk m.original_entry_id
                (entriesUpdate m.reflection_entries rid
                  (fun x => { x with
                              themes := analysis.themes,
                              sentiment := analysis.sentiment,
                              children_ids := x.children_ids ++
                                newChildIds fresh 0 analysis.beliefs })
                  ++ newChildEntries fresh refl.id refl.language 0 analysis.beliefs) := by
              cases heq
              rfl
            rw [hm']
            exact analyze_final_consistent m.original_entry_id fresh m.reflection_entries
              rid refl analysis.themes analysis.sentiment refl.language analysis.beliefs
              hwf.keysNodup hwf.idsMatch hwf.consistent hlook habs

/-- Witness for the amended C1 theorem: a fresh root upserted into the
empty manager, the concrete chain with its middle node deleted, and the
lone answered root analyzed with a one-belief response — consistency
holds after each operation. -/
theorem tree_consistency_per_operation_witness :
    (treeConsistentB emptyManager = true ∧
      unansweredLone.parent_id = none ∧
      unansweredLone.children_ids = [] ∧
      treeConsistentB (upsert_reflection emptyManager unansweredLone).2 = true) ∧
    (WF chainManager ∧
      delete_reflection_by_id (0+1) chainManager "b1" =
        .ok (true, ReflectionManager.mk (some "a1")
          [("a1", { entryA with children_ids := ["c1"] }),
           ("c1", { entryC with parent_id := some "a1" })]) ∧
      treeConsistentB (ReflectionManager.mk (some "a1")
        [("a1", { entryA with children_ids := ["c1"] }),
         ("c1", { entryC with parent_id := some "a1" })]) = true) ∧
    (WF answeredManager ∧
      analyze_reflection_by_id oneBeliefClient freshRep answeredManager "v1" =
        (true, ReflectionManager.mk (some "v1")
          [("v1", { answeredLone with
                    themes := ["work"], sentiment := .Positive, children_ids := ["nn"] }),
           ("nn", { id := "nn",
                    question := "What would enough look like today?",
                    context := some "I equate busyness with productivity",
                    context_type := .Assumption,
                    parent_id := some "v1" })]) ∧
      treeConsistentB (ReflectionManager.mk (some "v1")
        [("v1", { answeredLone with
                  themes := ["work"], sentiment := .Positive, children_ids := ["nn"] }),
         ("nn", { id := "nn",
                  question := "What would enough look like today?",
                  context := some "I equate busyness with productivity",
                  context_type := .Assumption,
                  parent_id := some "v1" })]) = true) := by
  have hwfC : WF chainManager :=
    ⟨by decide, by decide, by decide, by decide, by decide, ⟨chainRank, by decide⟩⟩
  have hwfA : WF answeredManager :=
    ⟨by decide, by decide, by decide, by decide, by decide,
     ⟨(fun _ => 0), by decide⟩⟩
  have habs : ∀ j, freshRep j ∉ entryKeys answeredManager.reflection_entries := by
    intro j hmem
    have hj : freshRep j = "v1" := by
      simpa [answeredManager, answeredLone, entryKeys] using hmem
    have hd := congrArg String.data hj
    have hd2 : List.replicate (j+2) 'n' = "v1".data := hd
    rw [List.replicate_succ, List.replicate_succ] at hd2
    have hv : "v1".data = ['v', '1'] := rfl
    rw [hv] at hd2
    simp at hd2
  have hinj : ∀ j k, j ≠ k → freshRep j ≠ freshRep k := by
    intro j k hne h
    have hd := congrArg (fun s => s.data.length) h
    simp only [freshRep, List.length_replicate] at hd
    omega
  have hdel : delete_reflection_by_id (0+1) chainManager "b1" =
      .ok (true, ReflectionManager.mk (some "a1")
        [("a1", { entryA with children_ids := ["c1"] }),
         ("c1", { entryC with parent_id := some "a1" })]) := by
    simp [delete_reflection_by_id, chainManager, entryA, entryB, entryC, entriesLookup,
      entriesUpdate, entriesErase, getChildrenLoop, reparentLoop, listRemoveFirst,
      List.find?, lookupD]
  have hana : analyze_reflection_by_id oneBeliefClient freshRep answeredManager "v1" =
      (true, ReflectionManager.mk (some "v1")
        [("v1", { answeredLone with
                  themes := ["work"], sentiment := .Positive, children_ids := ["nn"] }),
         ("nn", { id := "nn",
                  question := "What would enough look like today?",
                  context := some "I equate busyness with productivity",
                  context_type := .Assumption,
                  parent_id := some "v1" })]) := by
    decide
  refine ⟨⟨by decide, by decide, by decide,
      tree_consistency_per_operation.1 emptyManager unansweredLone (by decide) (by decide)
        (by decide) (by decide)⟩,
    ⟨hwfC, hdel, ?_⟩, ⟨hwfA, hana, ?_⟩⟩
  · exact tree_consistency_per_operation.2.1 0 chainManager "b1" "a1" entryB entryA true _
      hwfC (by decide) (by decide) (by decide) hdel
  · exact tree_consistency_per_operation.2.2 oneBeliefClient freshRep answeredManager "v1"
      true _ hwfA (by decide) habs hinj hana
